import Mathlib

/-!
Verification of the arklib resource index, atomic versioned file, and
resource-identifier encoding, as a shallow embedding of the Rust sources
(`src/index.rs`, `src/atomic_file/atomic.rs`, `src/atomic_file/mod.rs`,
`src/id.rs`, `src/resource/blake3.rs`).

Modelling conventions:
* Rust `HashMap` values are embedded as association lists (`List (K × V)`)
  with first-match lookup; `insert` replaces the first binding of the key,
  `remove` deletes every binding of the key (identical behaviour when keys
  are unique, which `HashMap` guarantees).
* Filesystem paths are abstracted as natural numbers (`FPath`): the index
  logic only compares paths for equality.
* `SystemTime` is embedded as nanoseconds since the epoch (`Nat`).
* Filesystem interaction is made explicit: operations that in Rust stat or
  hash a file take the outcome of that interaction as an argument
  (`ScanOutcome`, `FsFile`), and a whole-directory scan is a finite list of
  path/file pairs (`FileSys`).
-/

set_option maxHeartbeats 1000000

namespace Arklib

/-- Association-list lookup: first binding of the key, embedding
`HashMap::get`. -/
def alGet {K V : Type} [DecidableEq K] (l : List (K × V)) (k : K) : Option V :=
  match l with
  | [] => none
  | (k', v) :: rest => if k' = k then some v else alGet rest k

/-- Association-list insert: replaces the first binding of the key if
present, otherwise appends, embedding `HashMap::insert`. -/
def alInsert {K V : Type} [DecidableEq K] (l : List (K × V)) (k : K) (v : V) :
    List (K × V) :=
  match l with
  | [] => [(k, v)]
  | (k', v') :: rest =>
    if k' = k then (k, v) :: rest else (k', v') :: alInsert rest k v

/-- Association-list removal of every binding of the key, embedding
`HashMap::remove` (which removes the unique binding). -/
def alRemove {K V : Type} [DecidableEq K] (l : List (K × V)) (k : K) :
    List (K × V) :=
  match l with
  | [] => []
  | (k', v) :: rest =>
    if k' = k then alRemove rest k else (k', v) :: alRemove rest k

/-- Abstract filesystem path (the index compares paths only for equality). -/
abbrev FPath := Nat

/-- ResourceId of `src/resource/crc32.rs` as used by `src/index.rs`:
a data size paired with a hash value, compared componentwise. -/
structure ResourceId where
  data_size : Nat
  hash : Nat
deriving DecidableEq

/-- IndexEntry of `src/index.rs`: a resource id plus the recorded
last-modified time (nanoseconds since the epoch). -/
structure IndexEntry where
  modified : Nat
  id : ResourceId
deriving DecidableEq

/-- The three jointly-consistent maps of `ResourceIndex` in `src/index.rs`
(the `root` path is omitted: no claim depends on it). -/
structure ResourceIndex where
  id2path : List (ResourceId × FPath)
  path2id : List (FPath × IndexEntry)
  collisions : List (ResourceId × Nat)
deriving DecidableEq

/-- IndexUpdate of `src/index.rs`: deleted ids and added path/id pairs
(sets embedded as lists). -/
structure IndexUpdate where
  deleted : List ResourceId
  added : List (FPath × ResourceId)
deriving DecidableEq

/-- Kinds of `ArklibError` relevant to the index operations. -/
inductive ArkErr where
  | parse
  | path
  | collision
  | io
  | other
deriving DecidableEq

/-- Embedding of `ResourceIndex::insert_entry` (src/index.rs:547-562):
first seen id gets a representative path; a repeated id increments the
collision count, initialising it to 2; the path map always gets the
entry. -/
def insert_entry (idx : ResourceIndex) (path : FPath) (entry : IndexEntry) :
    ResourceIndex :=
  let id := entry.id
  let idx' :=
    match alGet idx.id2path id with
    | none => { idx with id2path := alInsert idx.id2path id path }
    | some _ =>
      match alGet idx.collisions id with
      | some k => { idx with collisions := alInsert idx.collisions id (k + 1) }
      | none => { idx with collisions := alInsert idx.collisions id 2 }
  { idx' with path2id := alInsert idx'.path2id path entry }

/-- List of `path2id` entries dropped by `forget_id`: every binding whose
entry carries the given id. -/
def removeEntriesWithId (l : List (FPath × IndexEntry)) (i : ResourceId) :
    List (FPath × IndexEntry) :=
  match l with
  | [] => []
  | (p, e) :: rest =>
    if e.id = i then removeEntriesWithId rest i
    else (p, e) :: removeEntriesWithId rest i

/-- Embedding of `ResourceIndex::forget_id` (src/index.rs:566-590): removes
every path bound to the id and the id's representative, never touches
`collisions`, and always returns `Ok` with `deleted = {old_id}`. -/
def forget_id (idx : ResourceIndex) (old_id : ResourceId) :
    Except ArkErr IndexUpdate × ResourceIndex :=
  (Except.ok ⟨[old_id], []⟩,
    { idx with
        path2id := removeEntriesWithId idx.path2id old_id,
        id2path := alRemove idx.id2path old_id })

/-- Embedding of `ResourceIndex::forget_path` (src/index.rs:596-644):
removes the path binding; with a collision record it decrements the count
(dropping it at 1) and re-inserts the current representative unchanged,
failing with a Collision error if the id has no representative; without a
collision record it removes the representative. -/
def forget_path (idx : ResourceIndex) (path : FPath) (old_id : ResourceId) :
    Except ArkErr IndexUpdate × ResourceIndex :=
  let p2 := alRemove idx.path2id path
  match alGet idx.collisions old_id with
  | some k =>
    let k' := k - 1
    let collisions' :=
      if k' = 1 then alRemove idx.collisions old_id
      else alInsert idx.collisions old_id k'
    match alGet idx.id2path old_id with
    | some collided_path =>
      (Except.ok ⟨[old_id], []⟩,
        { idx with
            path2id := p2,
            collisions := collisions',
            id2path := alInsert idx.id2path old_id collided_path })
    | none =>
      (Except.error ArkErr.collision,
        { idx with path2id := p2, collisions := collisions' })
  | none =>
    (Except.ok ⟨[old_id], []⟩,
      { idx with path2id := p2, id2path := alRemove idx.id2path old_id })

/-- Embedding of `ResourceIndex::index_new` (src/index.rs:417-453). The
filesystem interaction is the `scan` argument: `none` embeds every failure
(missing path, metadata error, directory or empty file), `some entry` the
successfully scanned entry. Note the Rust code increments an existing
collision count but never initialises one, and overwrites the
representative path unconditionally. -/
def index_new (idx : ResourceIndex) (path : FPath) (scan : Option IndexEntry) :
    Except ArkErr IndexUpdate × ResourceIndex :=
  match scan with
  | none => (Except.error ArkErr.path, idx)
  | some new_entry =>
    let id := new_entry.id
    let collisions' :=
      match alGet idx.collisions id with
      | some k => alInsert idx.collisions id (k + 1)
      | none => idx.collisions
    (Except.ok ⟨[], [(path, id)]⟩,
      { idx with
          collisions := collisions',
          id2path := alInsert idx.id2path id path,
          path2id := alInsert idx.path2id path new_entry })

/-- Outcome of the filesystem interaction performed by `update_one`:
the path may be gone, canonicalization may fail (the one case the Rust
code propagates as a raw I/O error), stat may fail, the scan may find a
directory or empty file, or a fresh entry is produced. -/
inductive ScanOutcome where
  | absent
  | canonErr
  | statErr
  | notFile
  | scanned (entry : IndexEntry)
deriving DecidableEq

/-- Embedding of `ResourceIndex::update_one` (src/index.rs:472-541),
parametrised by the scan outcome for the given path. -/
def update_one (idx : ResourceIndex) (path : FPath) (old_id : ResourceId)
    (scan : ScanOutcome) : Except ArkErr IndexUpdate × ResourceIndex :=
  match scan with
  | ScanOutcome.absent => forget_id idx old_id
  | ScanOutcome.canonErr => (Except.error ArkErr.io, idx)
  | ScanOutcome.statErr => forget_id idx old_id
  | ScanOutcome.notFile => forget_path idx path old_id
  | ScanOutcome.scanned new_entry =>
    match alGet idx.path2id path with
    | none => (Except.error ArkErr.path, idx)
    | some curr_entry =>
      if curr_entry.id = new_entry.id then
        (Except.error ArkErr.collision, idx)
      else
        match forget_path idx path old_id with
        | (Except.ok upd, idx1) =>
          (Except.ok ⟨upd.deleted, alInsert upd.added path new_entry.id⟩,
            insert_entry idx1 path new_entry)
        | (Except.error e, idx1) => (Except.error e, idx1)

/-- Number of `path2id` entries carrying the given identifier. -/
def countIds (l : List (FPath × IndexEntry)) (i : ResourceId) : Nat :=
  match l with
  | [] => 0
  | (_, e) :: rest => (if e.id = i then 1 else 0) + countIds rest i

/-- The joint-consistency invariant claimed for the three index
structures: every id with a representative has its `path2id` multiplicity
equal to its collision count when one is recorded (a recorded count being
at least 2), and equal to exactly 1 otherwise. The two `getD` forms say
precisely that: the multiplicity is the recorded count, defaulting to 1
when absent, and a recorded count is never below 2. -/
def collisionInvariant (idx : ResourceIndex) : Prop :=
  ∀ i : ResourceId,
    (alGet idx.id2path i).isSome →
      countIds idx.path2id i = (alGet idx.collisions i).getD 1 ∧
      2 ≤ (alGet idx.collisions i).getD 2

/-- Embedding of `ResourceIndex::build` (src/index.rs:94-117) after the
directory walk and per-file scan: entries are inserted one by one into an
empty index. -/
def build (entries : List (FPath × IndexEntry)) : ResourceIndex :=
  entries.foldl (fun idx pe => insert_entry idx pe.1 pe.2) ⟨[], [], []⟩

/-- What the filesystem reports for one discovered file: the raw
modification time in nanoseconds (`none` embeds a metadata or
modified-time retrieval failure) and the computed id (`none` embeds a
scan failure: directory, empty file, or read error). -/
structure FsFile where
  mtime : Option Nat
  rid : Option ResourceId
deriving DecidableEq

/-- A whole-directory scan as produced by `discover_files`: the list of
discovered path/file pairs (hidden files and directories are already
filtered out by the walk). -/
abbrev FileSys := List (FPath × FsFile)

/-- RESOURCE_UPDATED_THRESHOLD (src/index.rs:21): 1 millisecond, in
nanoseconds. -/
def RESOURCE_UPDATED_THRESHOLD : Nat := 1000000

/-- Truncation of a timestamp to millisecond precision, as performed by
`scan_entry` (src/index.rs:713-720). -/
def truncMs (t : Nat) : Nat := t / 1000000 * 1000000

/-- Embedding of `scan_entry` (src/index.rs:700-723): fails on a
directory or empty file (folded into `rid = none`) or on a time
retrieval failure, and truncates the stored modification time to
milliseconds. -/
def scan_entry (f : FsFile) : Option IndexEntry :=
  match f.rid, f.mtime with
  | some i, some t => some ⟨truncMs t, i⟩
  | _, _ => none

/-- Embedding of `scan_entries` (src/index.rs:728-751): scan every file,
silently dropping failures. -/
def scan_entries (files : List (FPath × FsFile)) : List (FPath × IndexEntry) :=
  match files with
  | [] => []
  | (p, f) :: rest =>
    match scan_entry f with
    | some e => (p, e) :: scan_entries rest
    | none => scan_entries rest

/-- Embedding of the updated-path detection loop of `update_all`
(src/index.rs:292-343): for every preserved path, compare the live
modification time with the recorded one; metadata failures are skipped,
a live time earlier than the recorded one aborts the whole update (the
`duration_since` error is propagated), and an advance of at least the
threshold marks the path as updated. -/
def detect_updated (idx : ResourceIndex) (fs : FileSys)
    (preserved : List FPath) : Except ArkErr (List (FPath × FsFile)) :=
  match fs with
  | [] => Except.ok []
  | (p, f) :: rest =>
    if p ∈ preserved then
      match alGet idx.path2id p with
      | none => detect_updated idx rest preserved
      | some our_entry =>
        match f.mtime with
        | none => detect_updated idx rest preserved
        | some t =>
          if t < our_entry.modified then Except.error ArkErr.other
          else if RESOURCE_UPDATED_THRESHOLD ≤ t - our_entry.modified then
            (detect_updated idx rest preserved).map (fun l => (p, f) :: l)
          else detect_updated idx rest preserved
    else detect_updated idx rest preserved

/-- Embedding of the deletion loop of `update_all` (src/index.rs:352-372):
remove each path, drop the collision record and reinsert it decremented
when it exceeded 1, otherwise drop the representative and record the id
as deleted. -/
def delete_paths (idx : ResourceIndex) (deleted : List ResourceId) :
    List FPath → ResourceIndex × List ResourceId
  | [] => (idx, deleted)
  | p :: rest =>
    match alGet idx.path2id p with
    | some entry =>
      let idxA := { idx with path2id := alRemove idx.path2id p }
      let k := (alGet idxA.collisions entry.id).getD 1
      let idxB := { idxA with collisions := alRemove idxA.collisions entry.id }
      if 1 < k then
        delete_paths
          { idxB with collisions := alInsert idxB.collisions entry.id (k - 1) }
          deleted rest
      else
        delete_paths { idxB with id2path := alRemove idxB.id2path entry.id }
          (if entry.id ∈ deleted then deleted else deleted ++ [entry.id]) rest
    | none => delete_paths idx deleted rest

/-- Insertion loop at the end of `update_all` (src/index.rs:386-397). -/
def insert_many (idx : ResourceIndex) :
    List (FPath × IndexEntry) → ResourceIndex
  | [] => idx
  | (p, e) :: rest => insert_many (insert_entry idx p e) rest

/-- Embedding of `ResourceIndex::update_all` (src/index.rs:265-405) over a
directory scan `fs`: partition paths into preserved/created, detect
updated preserved paths, delete vanished and updated paths, rescan
created and updated paths, discard fresh entries whose id is already
represented, and insert the survivors. -/
def update_all (idx : ResourceIndex) (fs : FileSys) :
    Except ArkErr (IndexUpdate × ResourceIndex) :=
  let curr_paths : List FPath := fs.map Prod.fst
  let prev_paths : List FPath := idx.path2id.map Prod.fst
  let preserved : List FPath := curr_paths.filter (fun p => decide (p ∈ prev_paths))
  let created : List (FPath × FsFile) :=
    fs.filter (fun pf => decide (pf.1 ∉ preserved))
  match detect_updated idx fs preserved with
  | Except.error e => Except.error e
  | Except.ok updated =>
    let paths_to_delete : List FPath :=
      prev_paths.filter (fun p => decide (p ∉ preserved)) ++ updated.map Prod.fst
    let (idx1, deleted) := delete_paths idx [] paths_to_delete
    let fresh := scan_entries updated ++ scan_entries created
    let added : List (FPath × IndexEntry) :=
      fresh.filter (fun pe => decide (alGet idx1.id2path pe.2.id = none))
    let idx2 := insert_many idx1 added
    Except.ok (⟨deleted, added.map (fun pe => (pe.1, pe.2.id))⟩, idx2)

/-- The `preserved` list of `update_all` (src/index.rs:277-283): current
paths that were already indexed. -/
def preservedOf (idx : ResourceIndex) (fs : FileSys) : List FPath :=
  (fs.map Prod.fst).filter (fun p => decide (p ∈ idx.path2id.map Prod.fst))

/-- The `created` list of `update_all`: current files at paths not
preserved. -/
def createdOf (idx : ResourceIndex) (fs : FileSys) : FileSys :=
  fs.filter (fun pf => decide (pf.1 ∉ preservedOf idx fs))

/-- The `paths_to_delete` list of `update_all` (src/index.rs:346-350):
indexed paths that vanished, plus the updated paths. -/
def pathsToDeleteOf (idx : ResourceIndex) (fs : FileSys)
    (updated : List (FPath × FsFile)) : List FPath :=
  (idx.path2id.map Prod.fst).filter (fun p => decide (p ∉ preservedOf idx fs))
    ++ updated.map Prod.fst

/-- The rescanned entries of `update_all` (src/index.rs:374-384): updated
paths first, then created paths. -/
def freshOf (idx : ResourceIndex) (fs : FileSys)
    (updated : List (FPath × FsFile)) : List (FPath × IndexEntry) :=
  scan_entries updated ++ scan_entries (createdOf idx fs)

/-- The `added` list of `update_all` (src/index.rs:386-395): fresh entries
whose id has no representative after the deletion phase. -/
def addedOf (idx : ResourceIndex) (fs : FileSys)
    (updated : List (FPath × FsFile)) (idxd : ResourceIndex) :
    List (FPath × IndexEntry) :=
  (freshOf idx fs updated).filter
    (fun pe => decide (alGet idxd.id2path pe.2.id = none))

/-! Atomic versioned file (src/atomic_file/atomic.rs). A version file is
identified by the writer identity carried in its name (the Rust field
`prefix`, here `WriterId`) and its version number; the directory is the
list of version files present, in `read_dir` order. Scratch files, which
carry no parseable version, are invisible to `latest_version` and
`prune_old_versions` and are therefore omitted from the model. Matching a
candidate against this writer's identity embeds the Rust substring test
`path.contains(&self.prefix)` as equality of writer identities. -/

/-- Writer identity: directory name plus machine id, ending in a dot. -/
abbrev WriterId := String

/-- A version file: writer identity and version number. -/
abbrev VFile := WriterId × Nat

/-- Directory contents: the version files present, in `read_dir` order. -/
abbrev VDir := List VFile

/-- MAX_VERSION_FILES (src/atomic_file/atomic.rs:7). -/
def MAX_VERSION_FILES : Nat := 10

/-- ReadOnlyFile (src/atomic_file/atomic.rs:47-51): the version snapshot
returned by `load`, naming the file it designates. -/
structure ReadOnlyFile where
  version : Nat
  writer : WriterId
deriving DecidableEq

/-- Embedding of `ReadOnlyFile::open` (src/atomic_file/atomic.rs:58-64):
version 0 is the "nothing written yet" sentinel and opens to no file. -/
def openFile (f : ReadOnlyFile) : Option VFile :=
  if f.version = 0 then none else some (f.writer, f.version)

/-- I/O error kinds relevant to the CAS protocol. -/
inductive IoErr where
  | alreadyExists
  | notFound
  | other (code : Nat)
deriving DecidableEq

/-- The fold inside `AtomicFile::latest_version`
(src/atomic_file/atomic.rs:124-142): collect every file whose version is
at least the running maximum while raising the maximum. -/
def latestScan (dir : VDir) : List ReadOnlyFile × Nat :=
  dir.foldl
    (fun acc f => if acc.2 ≤ f.2 then (acc.1 ++ [⟨f.2, f.1⟩], f.2) else acc)
    ([], 0)

/-- Embedding of `AtomicFile::latest_version`
(src/atomic_file/atomic.rs:122-155): the collected candidates filtered to
the final maximum, paired with that maximum (0 for an empty directory). -/
def latest_version (dir : VDir) : List ReadOnlyFile × Nat :=
  ((latestScan dir).1.filter (fun f => decide (f.version = (latestScan dir).2)),
    (latestScan dir).2)

/-- The highest version number present in a directory, 0 when none. -/
def maxVersion : VDir → Nat
  | [] => 0
  | f :: rest => max f.2 (maxVersion rest)

/-- Embedding of `AtomicFile::load` (src/atomic_file/atomic.rs:162-192):
no candidate yields the sentinel handle under this writer's identity; a
unique candidate is returned; among several tied candidates the one with
this writer's identity is returned, and a NotFound error is raised when
none carries it. -/
def load (dir : VDir) (self : WriterId) : Except IoErr ReadOnlyFile :=
  match latest_version dir with
  | ([], version) => Except.ok ⟨version, self⟩
  | ([f], _) => Except.ok f
  | (files, _) =>
    match files.find? (fun f => decide (f.writer = self)) with
    | some f => Except.ok f
    | none => Except.error IoErr.notFound

/-- Embedding of `AtomicFile::prune_old_versions`
(src/atomic_file/atomic.rs:244-260): remove every version file lagging
the given version by at least MAX_VERSION_FILES - 1, returning the new
directory and the number removed. -/
def prune_old_versions (dir : VDir) (version : Nat) : VDir × Nat :=
  match dir with
  | [] => ([], 0)
  | f :: rest =>
    let (d, n) := prune_old_versions rest version
    if f.2 + MAX_VERSION_FILES - 1 ≤ version then (d, n + 1) else (f :: d, n)

/-- Decidable equality for `Except`, used to evaluate statements about
concrete CAS outcomes. -/
instance {ε α : Type} [DecidableEq ε] [DecidableEq α] :
    DecidableEq (Except ε α) := fun x y =>
  match x, y with
  | Except.ok a, Except.ok b =>
    if h : a = b then isTrue (by rw [h])
    else isFalse (by intro hc; cases hc; exact h rfl)
  | Except.error a, Except.error b =>
    if h : a = b then isTrue (by rw [h])
    else isFalse (by intro hc; cases hc; exact h rfl)
  | Except.ok _, Except.error _ => isFalse (by intro hc; cases hc)
  | Except.error _, Except.ok _ => isFalse (by intro hc; cases hc)

/-- Result of a CAS attempt: the returned value (count of pruned files on
success) and the directory contents afterwards. -/
structure CasResult where
  result : Except IoErr Nat
  dir : VDir
deriving DecidableEq

/-- Embedding of `AtomicFile::compare_and_swap`
(src/atomic_file/atomic.rs:207-241): re-read the highest version and fail
with AlreadyExists if it exceeds the caller's version; hard-link the
scratch file to the name for version + 1 under this writer's identity,
which fails with AlreadyExists if that name is taken (the Unix link-count
fallback is dead code: its `cfg` tests `target_os = "unix"`, which no
target satisfies); on success prune old versions. Failed attempts leave
the directory unchanged: the code mutates it only through the link and
the pruning, both after the checks. -/
def compare_and_swap (dir : VDir) (self : WriterId) (currentVersion : Nat) :
    CasResult :=
  let latest := (latest_version dir).2
  if currentVersion < latest then ⟨Except.error IoErr.alreadyExists, dir⟩
  else if (self, currentVersion + 1) ∈ dir then
    ⟨Except.error IoErr.alreadyExists, dir⟩
  else
    let pruned := prune_old_versions (dir ++ [(self, currentVersion + 1)]) latest
    ⟨Except.ok pruned.2, pruned.1⟩

/-- Control flow of the `modify` / `modify_json` retry loops
(src/atomic_file/mod.rs:11-60) over the sequence of outcomes of the
successive CAS attempts: return the first success, retry on
AlreadyExists, and return the first other error; `none` embeds a loop
that never exits within the listed attempts. -/
def modifyLoop : List (Except IoErr Nat) → Option (Except IoErr Nat)
  | [] => none
  | Except.ok v :: _ => some (Except.ok v)
  | Except.error IoErr.alreadyExists :: rest => modifyLoop rest
  | Except.error e :: _ => some (Except.error e)

/-- One load-then-commit round by a single writer, as performed by the
version-retention scenario: load the current handle and attempt a CAS
against it (an error leaves the directory unchanged). -/
def commit_round (dir : VDir) (self : WriterId) : VDir :=
  match load dir self with
  | Except.error _ => dir
  | Except.ok current =>
    match compare_and_swap dir self current.version with
    | ⟨Except.ok _, dir'⟩ => dir'
    | ⟨Except.error _, _⟩ => dir

/-- V successive load-then-commit rounds by one writer starting from an
empty directory. -/
def commit_many (self : WriterId) : Nat → VDir
  | 0 => []
  | v + 1 => commit_round (commit_many self v) self

/-! Resource-identifier text encoding (src/id.rs and
src/resource/blake3.rs). Rust strings are embedded as `List Char`. -/

/-- ASCII digit character for a value below 10. -/
def digitChar (d : Nat) : Char :=
  match d with
  | 0 => '0' | 1 => '1' | 2 => '2' | 3 => '3' | 4 => '4'
  | 5 => '5' | 6 => '6' | 7 => '7' | 8 => '8' | 9 => '9'
  | _ => '*'

/-- Decimal digits of `n`, most significant first, with explicit fuel
(adequate whenever `n ≤ fuel`); empty for 0. -/
def decChars (fuel n : Nat) : List Char :=
  match fuel with
  | 0 => []
  | fuel + 1 => if n = 0 then [] else decChars fuel (n / 10) ++ [digitChar (n % 10)]

/-- Decimal rendering of a natural number, embedding Rust's `Display`
for unsigned integers. -/
def natToChars (n : Nat) : List Char :=
  if n = 0 then ['0'] else decChars n n

/-- Numeric value of an ASCII digit character. -/
def charVal (c : Char) : Nat := c.toNat - 48

/-- Core of Rust's unsigned-integer `FromStr`: a non-empty all-digit
string evaluated in base 10, rejected when it reaches the type's bound
(overflow). -/
def parseNatCore (l : List Char) (bound : Nat) : Option Nat :=
  if l = [] then none
  else if l.all Char.isDigit then
    let v := l.foldl (fun a c => a * 10 + charVal c) 0
    if v < bound then some v else none
  else none

/-- Embedding of `str::parse::<u64>`: an optional leading plus sign, then
digits, bounded by 2^64. -/
def parseU64Chars (l : List Char) : Option Nat :=
  match l with
  | [] => none
  | c :: rest =>
    if c = '+' then parseNatCore rest (2 ^ 64)
    else parseNatCore (c :: rest) (2 ^ 64)

/-- Embedding of `str::parse::<u8>`: as `parseU64Chars` but bounded by
256. -/
def parseU8Chars (l : List Char) : Option Nat :=
  match l with
  | [] => none
  | c :: rest =>
    if c = '+' then parseNatCore rest 256
    else parseNatCore (c :: rest) 256

/-- Embedding of `str::split_once`: split at the first occurrence of the
separator character, `none` when it does not occur. -/
def splitOnceChar (sep : Char) : List Char → Option (List Char × List Char)
  | [] => none
  | c :: rest =>
    if c = sep then some ([], rest)
    else (splitOnceChar sep rest).map (fun pr => (c :: pr.1, pr.2))

/-- Embedding of `str::trim_start_matches` with a character pattern. -/
def trimStartMatches (pat : Char) (l : List Char) : List Char :=
  l.dropWhile (fun c => decide (c = pat))

/-- Embedding of `str::trim_end_matches` with a character pattern. -/
def trimEndMatches (pat : Char) (l : List Char) : List Char :=
  (l.reverse.dropWhile (fun c => decide (c = pat))).reverse

/-- ASCII whitespace test for `str::trim` (the inputs reached by the
claims contain at most spaces). -/
def isWs (c : Char) : Bool := c = ' ' ∨ c = '\t' ∨ c = '\n' ∨ c = '\r'

/-- Embedding of `str::trim`. -/
def trimChars (l : List Char) : List Char :=
  ((l.dropWhile isWs).reverse.dropWhile isWs).reverse

/-- Embedding of `str::split` with the two-character separator ", ",
leftmost non-overlapping matches. -/
def splitCommaSpace : List Char → List (List Char)
  | [] => [[]]
  | [c] => [[c]]
  | c1 :: c2 :: rest =>
    if c1 = ',' ∧ c2 = ' ' then [] :: splitCommaSpace rest
    else
      match splitCommaSpace (c2 :: rest) with
      | [] => [[c1]]
      | piece :: pieces => (c1 :: piece) :: pieces

/-- Interleaving of ", " between rendered list elements, as in Rust
`Debug` output for sequences. -/
def joinCommaSpace : List (List Char) → List Char
  | [] => []
  | [p] => p
  | p :: ps => p ++ ',' :: ' ' :: joinCommaSpace ps

/-- Rust `Debug` rendering of a byte array: "[b0, b1, ...]". -/
def displayBytesDebug (bytes : List Nat) : List Char :=
  '[' :: joinCommaSpace (bytes.map natToChars) ++ [']']

/-- ResourceId of src/id.rs: data size and a 32-byte BLAKE3 hash, the
bytes as naturals below 256. -/
structure RIdDebug where
  data_size : Nat
  blake3 : List Nat
deriving DecidableEq

/-- Embedding of `Display for ResourceId` (src/id.rs:31-35):
"{size}-{hash:?}" with the hash in `Debug` array form. -/
def displayRIdDebug (id : RIdDebug) : List Char :=
  natToChars id.data_size ++ '-' :: displayBytesDebug id.blake3

/-- Embedding of `FromStr for ResourceId` (src/id.rs:37-57): split at the
first dash, parse the size as u64, strip brackets, split the byte list on
", ", require exactly 32 entries, and parse each trimmed entry as u8. -/
def fromStrRIdDebug (l : List Char) : Except ArkErr RIdDebug :=
  match splitOnceChar '-' l with
  | none => Except.error ArkErr.parse
  | some (ls, rs) =>
    match parseU64Chars ls with
    | none => Except.error ArkErr.parse
    | some data_size =>
      let s := trimEndMatches ']' (trimStartMatches '[' rs)
      let pieces := splitCommaSpace s
      if pieces.length = 32 then
        match pieces.mapM (fun p => parseU8Chars (trimChars p)) with
        | some bytes => Except.ok ⟨data_size, bytes⟩
        | none => Except.error ArkErr.parse
      else Except.error ArkErr.parse

/-- The standard base64 alphabet used by the `base64` crate's STANDARD
engine. -/
def b64Alphabet : List Char :=
  "ABCDEFGHIJKLMNOPQRSTUVWXYZabcdefghijklmnopqrstuvwxyz0123456789+/".toList

/-- Character encoding a six-bit value. -/
def b64CharOf (i : Nat) : Char := b64Alphabet.getD i 'A'

/-- Six-bit value of an alphabet character, `none` off the alphabet. -/
def b64IndexOf (c : Char) : Option Nat := b64Alphabet.findIdx? (fun x => x == c)

/-- Base64 encoding with padding (the STANDARD engine), three bytes to
four characters. -/
def b64Encode : List Nat → List Char
  | [] => []
  | [b0] => [b64CharOf (b0 / 4), b64CharOf (b0 % 4 * 16), '=', '=']
  | [b0, b1] =>
    [b64CharOf (b0 / 4), b64CharOf (b0 % 4 * 16 + b1 / 16),
     b64CharOf (b1 % 16 * 4), '=']
  | b0 :: b1 :: b2 :: rest =>
    b64CharOf (b0 / 4) :: b64CharOf (b0 % 4 * 16 + b1 / 16) ::
    b64CharOf (b1 % 16 * 4 + b2 / 64) :: b64CharOf (b2 % 64) :: b64Encode rest

/-- Decoding of one full base64 group into three bytes. -/
def b64DecodeGroup (c0 c1 c2 c3 : Char) : Option (List Nat) :=
  match b64IndexOf c0, b64IndexOf c1, b64IndexOf c2, b64IndexOf c3 with
  | some x0, some x1, some x2, some x3 =>
    some [x0 * 4 + x1 / 16, x1 % 16 * 16 + x2 / 4, x2 % 4 * 64 + x3]
  | _, _, _, _ => none

/-- Decoding of a final group padded with "==" into one byte. -/
def b64DecodePad2 (c0 c1 : Char) : Option (List Nat) :=
  match b64IndexOf c0, b64IndexOf c1 with
  | some x0, some x1 =>
    if x1 % 16 = 0 then some [x0 * 4 + x1 / 16] else none
  | _, _ => none

/-- Decoding of a final group padded with "=" into two bytes. -/
def b64DecodePad1 (c0 c1 c2 : Char) : Option (List Nat) :=
  match b64IndexOf c0, b64IndexOf c1, b64IndexOf c2 with
  | some x0, some x1, some x2 =>
    if x2 % 4 = 0 then some [x0 * 4 + x1 / 16, x1 % 16 * 16 + x2 / 4]
    else none
  | _, _, _ => none

/-- Base64 decoding as performed by the STANDARD engine: canonical
padding required, groups of four, trailing bits must be zero; the empty
string decodes to the empty byte sequence. -/
def b64Decode : List Char → Option (List Nat)
  | [] => some []
  | c0 :: c1 :: c2 :: c3 :: rest =>
    if rest.isEmpty then
      if c2 = '=' ∧ c3 = '=' then b64DecodePad2 c0 c1
      else if c3 = '=' then b64DecodePad1 c0 c1 c2
      else b64DecodeGroup c0 c1 c2 c3
    else
      match b64DecodeGroup c0 c1 c2 c3, b64Decode rest with
      | some g, some tail => some (g ++ tail)
      | _, _ => none
  | _ => none

/-- ResourceIdBlake3 of src/resource/blake3.rs: data size and a 32-byte
hash. -/
structure RIdB3 where
  data_size : Nat
  hash : List Nat
deriving DecidableEq

/-- Embedding of `Display for ResourceIdBlake3`
(src/resource/blake3.rs:41-46): "{size}-{hash base64}". -/
def displayRIdB3 (id : RIdB3) : List Char :=
  natToChars id.data_size ++ '-' :: b64Encode id.hash

/-- Outcome of running `FromStr for ResourceIdBlake3`, distinguishing a
Parse error from a panic. -/
inductive ParseOutcome (α : Type) where
  | ok (a : α)
  | err
  | panicked
deriving DecidableEq

/-- Embedding of `FromStr for ResourceIdBlake3`
(src/resource/blake3.rs:48-62): split at the first dash, parse the size,
base64-decode the remainder, then `copy_from_slice` into a 32-byte
array — which panics whenever the decoded length differs from 32. -/
def fromStrRIdB3 (l : List Char) : ParseOutcome RIdB3 :=
  match splitOnceChar '-' l with
  | none => ParseOutcome.err
  | some (ls, rs) =>
    match parseU64Chars ls with
    | none => ParseOutcome.err
    | some data_size =>
      match b64Decode rs with
      | none => ParseOutcome.err
      | some bytes =>
        if bytes.length = 32 then ParseOutcome.ok ⟨data_size, bytes⟩
        else ParseOutcome.panicked

/-! Helper lemmas about the association-list operations. -/

theorem alGet_alInsert_self {K V : Type} [DecidableEq K]
    (l : List (K × V)) (k : K) (v : V) : alGet (alInsert l k v) k = some v := by
  induction l with
  | nil => simp [alInsert, alGet]
  | cons h t ih =>
    obtain ⟨k', v'⟩ := h
    by_cases hk : k' = k
    · simp [alInsert, alGet, hk]
    · simp [alInsert, alGet, hk, ih]

theorem alGet_alInsert_ne {K V : Type} [DecidableEq K]
    (l : List (K × V)) (k k' : K) (v : V) (h : k' ≠ k) :
    alGet (alInsert l k v) k' = alGet l k' := by
  induction l with
  | nil => simp [alInsert, alGet, Ne.symm h]
  | cons hd t ih =>
    obtain ⟨ka, va⟩ := hd
    by_cases hk : ka = k
    · subst hk
      simp [alInsert, alGet, Ne.symm h]
    · by_cases hk' : ka = k'
      · simp [alInsert, alGet, hk, hk', h]
      · simp [alInsert, alGet, hk, hk', ih]

theorem alGet_alRemove_self {K V : Type} [DecidableEq K]
    (l : List (K × V)) (k : K) : alGet (alRemove l k) k = none := by
  induction l with
  | nil => simp [alRemove, alGet]
  | cons hd t ih =>
    obtain ⟨ka, va⟩ := hd
    by_cases hk : ka = k
    · simp [alRemove, hk, ih]
    · simp [alRemove, alGet, hk, ih]

theorem alGet_alRemove_ne {K V : Type} [DecidableEq K]
    (l : List (K × V)) (k k' : K) (h : k' ≠ k) :
    alGet (alRemove l k) k' = alGet l k' := by
  induction l with
  | nil => simp [alRemove, alGet]
  | cons hd t ih =>
    obtain ⟨ka, va⟩ := hd
    by_cases hk : ka = k
    · subst hk
      simp [alRemove, alGet, Ne.symm h, ih]
    · simp [alRemove, alGet, hk, ih]

theorem countIds_removeEntriesWithId (l : List (FPath × IndexEntry))
    (i : ResourceId) : countIds (removeEntriesWithId l i) i = 0 := by
  induction l with
  | nil => simp [removeEntriesWithId, countIds]
  | cons hd t ih =>
    obtain ⟨p, e⟩ := hd
    by_cases he : e.id = i
    · simp [removeEntriesWithId, he, ih]
    · simp [removeEntriesWithId, countIds, he, ih]

/-- C1: the claimed joint-consistency invariant is not preserved by
`index_new`. Starting from the consistent one-file index built over path 1
with id (10,5), indexing the new path 2 whose content scans to the same id
succeeds, yet afterwards no collision count is recorded for the id
(the spec demands count 2 on the first collision), the representative path
has been overwritten from 1 to 2 (the spec demands it stay unchanged), and
the invariant fails: two `path2id` entries carry the id while `collisions`
has no key for it. -/
theorem index_new_breaks_collision_invariant :
    collisionInvariant (build [(1, ⟨100, ⟨10, 5⟩⟩)]) ∧
    (index_new (build [(1, ⟨100, ⟨10, 5⟩⟩)]) 2 (some ⟨200, ⟨10, 5⟩⟩)).1 =
      Except.ok ⟨[], [(2, ⟨10, 5⟩)]⟩ ∧
    alGet (index_new (build [(1, ⟨100, ⟨10, 5⟩⟩)]) 2
      (some ⟨200, ⟨10, 5⟩⟩)).2.collisions ⟨10, 5⟩ = none ∧
    countIds (index_new (build [(1, ⟨100, ⟨10, 5⟩⟩)]) 2
      (some ⟨200, ⟨10, 5⟩⟩)).2.path2id ⟨10, 5⟩ = 2 ∧
    alGet (index_new (build [(1, ⟨100, ⟨10, 5⟩⟩)]) 2
      (some ⟨200, ⟨10, 5⟩⟩)).2.id2path ⟨10, 5⟩ = some 2 ∧
    ¬ collisionInvariant
        (index_new (build [(1, ⟨100, ⟨10, 5⟩⟩)]) 2 (some ⟨200, ⟨10, 5⟩⟩)).2 := by
  refine ⟨?_, by decide, by decide, by decide, by decide, ?_⟩
  · intro i hi
    have hAi : (⟨10, 5⟩ : ResourceId) = i := by
      by_contra hne
      rw [show alGet (build [(1, ⟨100, ⟨10, 5⟩⟩)]).id2path i = none from by
        simp [build, insert_entry, alGet, alInsert, hne]] at hi
      simp at hi
    subst hAi
    decide
  · intro h
    exact absurd (h ⟨10, 5⟩ (by decide)).1 (by decide)

/-- C3 counterexample: for an indexed path whose recomputed identifier
equals the recorded one, `update_one` does not return an empty update: it
returns a Collision error (leaving the index unchanged). -/
theorem update_one_same_id_cex :
    update_one (build [(1, ⟨100, ⟨10, 5⟩⟩)]) 1 ⟨10, 5⟩
        (ScanOutcome.scanned ⟨200, ⟨10, 5⟩⟩) =
      (Except.error ArkErr.collision, build [(1, ⟨100, ⟨10, 5⟩⟩)]) := by decide

/-- C3 amended: for every indexed path whose recomputed identifier equals
the previously recorded identifier, `update_one` returns a Collision error
and leaves the index unchanged. -/
theorem update_one_same_id_collision_error
    (idx : ResourceIndex) (path : FPath) (old_id : ResourceId)
    (curr new_entry : IndexEntry)
    (hcur : alGet idx.path2id path = some curr)
    (heq : curr.id = new_entry.id) :
    update_one idx path old_id (ScanOutcome.scanned new_entry) =
      (Except.error ArkErr.collision, idx) := by
  simp [update_one, hcur, heq]

/-- C3 witness: the amended statement evaluated at a concrete index. -/
theorem update_one_same_id_collision_error_witness :
    update_one (build [(7, ⟨300, ⟨9, 9⟩⟩)]) 7 ⟨9, 9⟩
        (ScanOutcome.scanned ⟨500, ⟨9, 9⟩⟩) =
      (Except.error ArkErr.collision, build [(7, ⟨300, ⟨9, 9⟩⟩)]) :=
  update_one_same_id_collision_error _ 7 ⟨9, 9⟩ ⟨300, ⟨9, 9⟩⟩ ⟨500, ⟨9, 9⟩⟩
    (by decide) (by decide)

/-- C4 counterexample: `forget_id` succeeds even for an identifier that is
not indexed at all — on the empty index, where id (1,2) has no entry, it
returns Ok with that id reported deleted, not a typed error. -/
theorem forget_id_unknown_id_ok_cex :
    alGet (⟨[], [], []⟩ : ResourceIndex).id2path ⟨1, 2⟩ = none ∧
    (forget_id ⟨[], [], []⟩ ⟨1, 2⟩).1 = Except.ok ⟨[⟨1, 2⟩], []⟩ := by decide

/-- C4 amended: `forget_id` never fails: for every index and identifier,
indexed or not, it returns Ok with deleted exactly the given id and no
additions, removes the id's representative and every path entry carrying
the id, and leaves the collision table untouched. -/
theorem forget_id_total_spec (idx : ResourceIndex) (old_id : ResourceId) :
    (forget_id idx old_id).1 = Except.ok ⟨[old_id], []⟩ ∧
    alGet (forget_id idx old_id).2.id2path old_id = none ∧
    countIds (forget_id idx old_id).2.path2id old_id = 0 ∧
    (forget_id idx old_id).2.collisions = idx.collisions :=
  ⟨rfl, alGet_alRemove_self _ _, countIds_removeEntriesWithId _ _, rfl⟩

/-- C7: identifier parsing is not total for `ResourceIdBlake3`: a
well-formed size with a base64-valid hash field of the wrong decoded
length (0 bytes for "0-", 3 bytes for "0-QUJD") drives `copy_from_slice`
into a length-mismatch panic instead of producing a Parse error. -/
theorem blake3_from_str_panics_on_wrong_length :
    fromStrRIdB3 ("0-".toList) = ParseOutcome.panicked ∧
    fromStrRIdB3 ("0-QUJD".toList) = ParseOutcome.panicked := by decide

/-- C9 counterexample: when two files from other writers tie at the
highest version and no file carries this writer's identity, `load` fails
with a NotFound error instead of returning one of the tied candidates. -/
theorem load_tie_without_own_file_fails_cex :
    load [("a.", 1), ("b.", 1)] "c." = Except.error IoErr.notFound := by decide

/-- C10 counterexample: on an index holding two colliding paths 1 and 2
for id (10,5), `update_one` on path 1 scanning as a directory/empty file
returns Ok with deleted = {(10,5)} — but does not remove the id's mapping:
`id2path` still binds (10,5), and still to the forgotten path 1. -/
theorem update_one_not_file_keeps_mapping_cex :
    (update_one (build [(1, ⟨100, ⟨10, 5⟩⟩), (2, ⟨100, ⟨10, 5⟩⟩)]) 1 ⟨10, 5⟩
        ScanOutcome.notFile).1 = Except.ok ⟨[⟨10, 5⟩], []⟩ ∧
    alGet (update_one (build [(1, ⟨100, ⟨10, 5⟩⟩), (2, ⟨100, ⟨10, 5⟩⟩)]) 1
        ⟨10, 5⟩ ScanOutcome.notFile).2.id2path ⟨10, 5⟩ = some 1 := by decide

/-- C10 amended: for a path that no longer exists or cannot be stat'ed,
`update_one` returns Ok with deleted exactly {old_id} and no additions;
for a path that now designates a directory or an empty file the same Ok
result is returned provided any recorded collision count for old_id comes
with a representative in `id2path` (as in every consistent index — in the
degenerate contrary state a Collision error is returned instead, and the
id2path mapping survives whenever a collision count is recorded). -/
theorem update_one_gone_spec (idx : ResourceIndex) (p : FPath)
    (oid : ResourceId) :
    (update_one idx p oid ScanOutcome.absent).1 = Except.ok ⟨[oid], []⟩ ∧
    (update_one idx p oid ScanOutcome.statErr).1 = Except.ok ⟨[oid], []⟩ ∧
    ((∀ k, alGet idx.collisions oid = some k →
        (alGet idx.id2path oid).isSome) →
      (update_one idx p oid ScanOutcome.notFile).1 = Except.ok ⟨[oid], []⟩) := by
  refine ⟨rfl, rfl, fun h => ?_⟩
  show (forget_path idx p oid).1 = _
  cases hc : alGet idx.collisions oid with
  | none => simp [forget_path, hc]
  | some k =>
    cases hq : alGet idx.id2path oid with
    | none =>
      have hs := h k hc
      rw [hq] at hs
      simp at hs
    | some q => simp [forget_path, hc, hq]

/-- C10 witness: the directory/empty-file case of the amended statement
evaluated on a concrete index with a recorded collision. -/
theorem update_one_gone_spec_witness :
    (update_one (build [(1, ⟨100, ⟨3, 4⟩⟩), (2, ⟨100, ⟨3, 4⟩⟩)]) 1 ⟨3, 4⟩
        ScanOutcome.notFile).1 = Except.ok ⟨[⟨3, 4⟩], []⟩ :=
  (update_one_gone_spec (build [(1, ⟨100, ⟨3, 4⟩⟩), (2, ⟨100, ⟨3, 4⟩⟩)]) 1
      ⟨3, 4⟩).2.2 (fun _ _ => by decide)

theorem latestScan_foldl_snd (dir : VDir) (fs : List ReadOnlyFile) (m : Nat) :
    (dir.foldl
        (fun acc f => if acc.2 ≤ f.2 then (acc.1 ++ [⟨f.2, f.1⟩], f.2) else acc)
        (fs, m)).2 = max m (maxVersion dir) := by
  induction dir generalizing fs m with
  | nil => simp [maxVersion]
  | cons f rest ih =>
    by_cases h : m ≤ f.2
    · simp only [List.foldl, h, if_true, ih, maxVersion]
      omega
    · simp only [List.foldl, h, if_false, ih, maxVersion]
      omega

theorem latestScan_foldl_filter (dir : VDir) (fs : List ReadOnlyFile)
    (m M : Nat) (hm : m ≤ M) (hdir : maxVersion dir ≤ M) :
    ((dir.foldl
        (fun acc f => if acc.2 ≤ f.2 then (acc.1 ++ [⟨f.2, f.1⟩], f.2) else acc)
        (fs, m)).1).filter (fun g => decide (g.version = M))
      = fs.filter (fun g => decide (g.version = M))
        ++ (dir.filter (fun f => decide (f.2 = M))).map
            (fun f => (⟨f.2, f.1⟩ : ReadOnlyFile)) := by
  induction dir generalizing fs m with
  | nil => simp
  | cons f rest ih =>
    have hf2 : f.2 ≤ M := le_trans (le_max_left _ _) hdir
    have hrest : maxVersion rest ≤ M := le_trans (le_max_right _ _) hdir
    by_cases h : m ≤ f.2
    · simp only [List.foldl, h, if_true]
      rw [ih _ _ hf2 hrest, List.filter_append]
      by_cases hfM : f.2 = M
      · simp [hfM, List.filter_cons]
      · simp [hfM, List.filter_cons]
    · have hfM : f.2 ≠ M := by omega
      simp only [List.foldl, h, if_false]
      rw [ih _ _ hm hrest]
      simp [hfM, List.filter_cons]

theorem latest_version_spec (dir : VDir) :
    latest_version dir =
      ((dir.filter (fun f => decide (f.2 = maxVersion dir))).map
          (fun f => (⟨f.2, f.1⟩ : ReadOnlyFile)),
        maxVersion dir) := by
  have h2 : (latestScan dir).2 = maxVersion dir := by
    have := latestScan_foldl_snd dir [] 0
    simpa [latestScan] using this
  have h1 := latestScan_foldl_filter dir [] 0 (maxVersion dir)
    (Nat.zero_le _) le_rfl
  simp only [latest_version, h2]
  refine Prod.ext ?_ rfl
  simpa [latestScan] using h1

theorem mem_candidates {dir : VDir} {g : ReadOnlyFile}
    (h : g ∈ (dir.filter (fun f => decide (f.2 = maxVersion dir))).map
        (fun f => (⟨f.2, f.1⟩ : ReadOnlyFile))) :
    g.version = maxVersion dir ∧ (g.writer, g.version) ∈ dir := by
  simp only [List.mem_map, List.mem_filter, decide_eq_true_eq] at h
  obtain ⟨x, ⟨hx, hx2⟩, rfl⟩ := h
  exact ⟨hx2, by simpa using hx⟩

theorem own_mem_candidates {dir : VDir} {self : WriterId}
    (h : (self, maxVersion dir) ∈ dir) :
    (⟨maxVersion dir, self⟩ : ReadOnlyFile) ∈
      (dir.filter (fun f => decide (f.2 = maxVersion dir))).map
        (fun f => (⟨f.2, f.1⟩ : ReadOnlyFile)) := by
  simp only [List.mem_map, List.mem_filter, decide_eq_true_eq]
  exact ⟨(self, maxVersion dir), ⟨h, rfl⟩, rfl⟩

theorem maxVersion_attained {dir : VDir} (h : maxVersion dir ≠ 0) :
    ∃ f ∈ dir, f.2 = maxVersion dir := by
  induction dir with
  | nil => simp [maxVersion] at h
  | cons f rest ih =>
    by_cases hc : maxVersion rest ≤ f.2
    · refine ⟨f, List.mem_cons_self _ _, ?_⟩
      simp only [maxVersion]
      omega
    · have hmax : maxVersion (f :: rest) = maxVersion rest := by
        simp only [maxVersion]
        omega
      rw [hmax] at h ⊢
      obtain ⟨g, hg, hg2⟩ := ih h
      exact ⟨g, List.mem_cons_of_mem _ hg, hg2⟩

theorem load_master (dir : VDir) (self : WriterId) :
    (load dir self = Except.ok ⟨maxVersion dir, self⟩ ∧
       dir.filter (fun f => decide (f.2 = maxVersion dir)) = []) ∨
    (∃ g, load dir self = Except.ok g ∧
       g ∈ (dir.filter (fun f => decide (f.2 = maxVersion dir))).map
          (fun f => (⟨f.2, f.1⟩ : ReadOnlyFile)) ∧
       (2 ≤ (dir.filter (fun f => decide (f.2 = maxVersion dir))).length →
          g.writer = self)) ∨
    (load dir self = Except.error IoErr.notFound ∧
       2 ≤ (dir.filter (fun f => decide (f.2 = maxVersion dir))).length ∧
       ∀ g ∈ (dir.filter (fun f => decide (f.2 = maxVersion dir))).map
            (fun f => (⟨f.2, f.1⟩ : ReadOnlyFile)), g.writer ≠ self) := by
  unfold load
  rw [latest_version_spec dir]
  rcases hC : dir.filter (fun f => decide (f.2 = maxVersion dir))
    with _ | ⟨x, _ | ⟨y, t⟩⟩
  · left
    rw [hC]
    exact ⟨rfl, rfl⟩
  · right; left
    refine ⟨⟨x.2, x.1⟩, ?_, ?_, ?_⟩
    · rw [hC]
      rfl
    · rw [hC]
      simp
    · rw [hC]
      intro h2
      simp at h2
  · rcases hf : ((x :: y :: t).map
        (fun f => (⟨f.2, f.1⟩ : ReadOnlyFile))).find?
          (fun f => decide (f.writer = self)) with _ | g
    · right; right
      rw [hC]
      refine ⟨?_, by simp, ?_⟩
      · show (match ((x :: y :: t).map
            (fun f => (⟨f.2, f.1⟩ : ReadOnlyFile))).find?
              (fun f => decide (f.writer = self)) with
          | some f => Except.ok f
          | none => Except.error IoErr.notFound) = Except.error IoErr.notFound
        rw [hf]
      · intro g hg
        have := List.find?_eq_none.mp hf g hg
        simpa using this
    · right; left
      refine ⟨g, ?_, ?_, fun _ => ?_⟩
      · rw [hC]
        show (match ((x :: y :: t).map
            (fun f => (⟨f.2, f.1⟩ : ReadOnlyFile))).find?
              (fun f => decide (f.writer = self)) with
          | some f => Except.ok f
          | none => Except.error IoErr.notFound) = Except.ok g
        rw [hf]
      · rw [hC]
        exact List.mem_of_find?_eq_some hf
      · have := List.find?_some hf
        simpa using this

/-- C9 amended: `load` returns a handle whose version is the highest
version among version files of all writers (version 0, whose `open`
yields no file, when the directory holds none); every returned non-zero
handle designates a file present in the directory; when the writer's own
file stands at the highest version the returned handle carries the
writer's identity; and `load` fails only with NotFound, only when at
least two files tie at the highest version and none carries this writer's
identity — it does not fall back to another tied candidate. -/
theorem load_version_spec :
    (∀ self : WriterId, load [] self = Except.ok ⟨0, self⟩ ∧
       openFile ⟨0, self⟩ = none) ∧
    (∀ (dir : VDir) (self : WriterId) (f : ReadOnlyFile),
       load dir self = Except.ok f → f.version = maxVersion dir) ∧
    (∀ (dir : VDir) (self : WriterId) (f : ReadOnlyFile),
       load dir self = Except.ok f → f.version ≠ 0 →
         (f.writer, f.version) ∈ dir) ∧
    (∀ (dir : VDir) (self : WriterId),
       (self, maxVersion dir) ∈ dir →
         ∃ f, load dir self = Except.ok f ∧ f.writer = self ∧
           f.version = maxVersion dir) ∧
    (∀ (dir : VDir) (self : WriterId) (e : IoErr),
       load dir self = Except.error e →
         e = IoErr.notFound ∧ (self, maxVersion dir) ∉ dir ∧
         2 ≤ (dir.filter (fun f => decide (f.2 = maxVersion dir))).length) := by
  refine ⟨fun self => ⟨rfl, rfl⟩, ?_, ?_, ?_, ?_⟩
  · intro dir self f h
    rcases load_master dir self with ⟨h1, _⟩ | ⟨g, h1, hg, _⟩ | ⟨h1, _, _⟩
    · have hf := h1.symm.trans h
      simp only [Except.ok.injEq] at hf
      rw [← hf]
    · have hf := h1.symm.trans h
      simp only [Except.ok.injEq] at hf
      rw [← hf]
      exact (mem_candidates hg).1
    · have hf := h1.symm.trans h
      simp at hf
  · intro dir self f h hne
    rcases load_master dir self with ⟨h1, hC⟩ | ⟨g, h1, hg, _⟩ | ⟨h1, _, _⟩
    · have hf := h1.symm.trans h
      simp only [Except.ok.injEq] at hf
      have hM : maxVersion dir ≠ 0 := by
        rw [← hf] at hne
        exact hne
      obtain ⟨x, hx, hx2⟩ := maxVersion_attained hM
      have hxf : x ∈ dir.filter (fun f => decide (f.2 = maxVersion dir)) := by
        simp [List.mem_filter, hx, hx2]
      rw [hC] at hxf
      simp at hxf
    · have hf := h1.symm.trans h
      simp only [Except.ok.injEq] at hf
      rw [← hf]
      exact (mem_candidates hg).2
    · have hf := h1.symm.trans h
      simp at hf
  · intro dir self h
    have hown := own_mem_candidates h
    rcases load_master dir self with ⟨h1, hC⟩ | ⟨g, h1, hg, himp⟩ | ⟨h1, _, hall⟩
    · rw [hC] at hown
      simp at hown
    · by_cases hlen :
        2 ≤ (dir.filter (fun f => decide (f.2 = maxVersion dir))).length
      · exact ⟨g, h1, himp hlen, (mem_candidates hg).1⟩
      · have hone :
            (dir.filter (fun f => decide (f.2 = maxVersion dir))).length = 1 := by
          have hpos :
              0 < (dir.filter (fun f => decide (f.2 = maxVersion dir))).length := by
            rcases hC : dir.filter (fun f => decide (f.2 = maxVersion dir))
              with _ | ⟨z, zs⟩
            · rw [hC] at hown
              simp at hown
            · simp [hC]
          omega
        obtain ⟨z, hz⟩ := List.length_eq_one.mp hone
        rw [hz] at hown hg
        simp only [List.map_cons, List.map_nil, List.mem_singleton] at hown hg
        refine ⟨g, h1, ?_, (mem_candidates (by rw [hz]; simpa using hg)).1⟩
        rw [hg, ← hown]
    · exact absurd (hall _ hown) (by simp)
  · intro dir self e h
    rcases load_master dir self with ⟨h1, _⟩ | ⟨g, h1, _, _⟩ | ⟨h1, hlen, hall⟩
    · have hf := h1.symm.trans h
      simp at hf
    · have hf := h1.symm.trans h
      simp at hf
    · have hf := h1.symm.trans h
      simp only [Except.error.injEq] at hf
      refine ⟨hf.symm, ?_, hlen⟩
      intro hmem
      exact absurd (hall _ (own_mem_candidates hmem)) (by simp)

/-- C9 witness: the amended statement evaluated on concrete directories:
a unique highest version, a tie resolved to this writer's own file, and
the failing two-way tie without an own file. -/
theorem load_version_spec_witness :
    (⟨2, "a."⟩ : ReadOnlyFile).version = maxVersion [("a.", 2), ("b.", 1)] ∧
    (∃ f, load [("a.", 1), ("b.", 1)] "b." = Except.ok f ∧ f.writer = "b." ∧
       f.version = maxVersion [("a.", 1), ("b.", 1)]) ∧
    (IoErr.notFound = IoErr.notFound ∧
       ("c.", maxVersion [("a.", 1), ("b.", 1)]) ∉
         ([("a.", 1), ("b.", 1)] : VDir) ∧
       2 ≤ (([("a.", 1), ("b.", 1)] : VDir).filter
          (fun f => decide (f.2 = maxVersion [("a.", 1), ("b.", 1)]))).length) :=
  ⟨load_version_spec.2.1 [("a.", 2), ("b.", 1)] "a." ⟨2, "a."⟩ (by decide),
   load_version_spec.2.2.2.1 [("a.", 1), ("b.", 1)] "b." (by decide),
   load_version_spec.2.2.2.2 [("a.", 1), ("b.", 1)] "c." IoErr.notFound
     (by decide)⟩

theorem latest_version_snd (dir : VDir) :
    (latest_version dir).2 = maxVersion dir := by
  rw [latest_version_spec]

theorem maxVersion_map_range (self : WriterId) :
    ∀ (n s : Nat), n ≠ 0 →
      maxVersion ((List.range' s n).map (fun v => (self, v))) = s + n - 1 := by
  intro n
  induction n with
  | zero => exact fun s h => absurd rfl h
  | succ n ih =>
    intro s _
    rw [List.range'_succ]
    by_cases h : n = 0
    · subst h
      simp [maxVersion]
    · simp only [List.map_cons, maxVersion, ih (s + 1) h]
      omega

theorem filter_max_map_range (self : WriterId) :
    ∀ (n s : Nat), n ≠ 0 →
      ((List.range' s n).map (fun v => (self, v))).filter
          (fun f => decide (f.2 = s + n - 1)) = [(self, s + n - 1)] := by
  intro n
  induction n with
  | zero => exact fun s h => absurd rfl h
  | succ n ih =>
    intro s _
    rw [List.range'_succ]
    by_cases h : n = 0
    · subst h
      simp
    · have ih' := ih (s + 1) h
      rw [show (s + 1) + n - 1 = s + n from by omega] at ih'
      rw [show s + (n + 1) - 1 = s + n from by omega]
      have hh : ¬ (s = s + n) := by omega
      simp [List.filter_cons, hh, ih']

theorem load_map_range (self : WriterId) (n s : Nat) (hn : n ≠ 0) :
    load ((List.range' s n).map (fun v => (self, v))) self =
      Except.ok ⟨s + n - 1, self⟩ := by
  unfold load
  rw [latest_version_spec, maxVersion_map_range self n s hn,
    filter_max_map_range self n s hn]
  rfl

theorem prune_keep_all (dir : VDir) (version : Nat)
    (h : ∀ f ∈ dir, ¬ (f.2 + MAX_VERSION_FILES - 1 ≤ version)) :
    prune_old_versions dir version = (dir, 0) := by
  induction dir with
  | nil => rfl
  | cons f rest ih =>
    have hf := h f (List.mem_cons_self _ _)
    have hr := ih (fun g hg => h g (List.mem_cons_of_mem _ hg))
    simp [prune_old_versions, hr, hf]

theorem prune_cons (f : VFile) (rest : VDir) (version : Nat) :
    prune_old_versions (f :: rest) version =
      (if f.2 + MAX_VERSION_FILES - 1 ≤ version
        then ((prune_old_versions rest version).1,
          (prune_old_versions rest version).2 + 1)
        else (f :: (prune_old_versions rest version).1,
          (prune_old_versions rest version).2)) := by
  rcases h : prune_old_versions rest version with ⟨d, n⟩
  simp [prune_old_versions, h]

theorem commit_round_eq (dir : VDir) (self : WriterId) (v n : Nat) (d : VDir)
    (hl : load dir self = Except.ok ⟨v, self⟩)
    (hc : compare_and_swap dir self v = ⟨Except.ok n, d⟩) :
    commit_round dir self = d := by
  unfold commit_round
  simp only [hl, hc]

theorem cas_step_small (self : WriterId) (V : Nat) (hVpos : 0 < V)
    (hVle : V ≤ 9) :
    compare_and_swap ((List.range' 1 V).map (fun v => (self, v))) self V =
      ⟨Except.ok 0,
        (List.range' 1 V).map (fun v => (self, v)) ++ [(self, V + 1)]⟩ := by
  have hmem : ((self, V + 1) : VFile) ∉
      (List.range' 1 V).map (fun v => (self, v)) := by
    simp only [List.mem_map, List.mem_range'_1]
    rintro ⟨v, hv, hveq⟩
    have : v = V + 1 := congrArg Prod.snd hveq
    omega
  simp only [compare_and_swap]
  rw [latest_version_snd, maxVersion_map_range self V 1 (by omega),
    show 1 + V - 1 = V from by omega, if_neg (lt_irrefl V), if_neg hmem,
    prune_keep_all ((List.range' 1 V).map (fun v => (self, v)) ++
      [(self, V + 1)]) V ?_]
  intro f hf
  rcases List.mem_append.mp hf with hf | hf
  · simp only [List.mem_map, List.mem_range'_1] at hf
    obtain ⟨v, hv, rfl⟩ := hf
    simp only [MAX_VERSION_FILES]
    omega
  · simp only [List.mem_singleton] at hf
    subst hf
    simp only [MAX_VERSION_FILES]
    omega

theorem commit_step_small (self : WriterId) (V : Nat) (hVpos : 0 < V)
    (hVle : V ≤ 9) :
    commit_round ((List.range' 1 V).map (fun v => (self, v))) self =
      (List.range' 1 (V + 1)).map (fun v => (self, v)) := by
  have hfin : (List.range' 1 V).map (fun v => (self, v)) ++ [(self, V + 1)] =
      (List.range' 1 (V + 1)).map (fun v => (self, v)) := by
    rw [List.range'_1_concat, List.map_append,
      show 1 + V = V + 1 from by omega]
    rfl
  refine (commit_round_eq _ self V 0 _ ?_
    (cas_step_small self V hVpos hVle)).trans hfin
  rw [load_map_range self V 1 (by omega), show 1 + V - 1 = V from by omega]

theorem cas_step_big (self : WriterId) (V : Nat) (hVgt : 9 < V)
    (hmem : ((self, V + 1) : VFile) ∉
      (List.range' (V + 1 - 10) 10).map (fun v => (self, v)))
    (hkeep : prune_old_versions
      ((List.range' (V + 1 - 10 + 1) 9).map (fun v => (self, v)) ++
        [(self, V + 1)]) V =
      ((List.range' (V + 1 - 10 + 1) 9).map (fun v => (self, v)) ++
        [(self, V + 1)], 0)) :
    compare_and_swap
      ((List.range' (V + 1 - 10) 10).map (fun v => (self, v))) self V =
      ⟨Except.ok 1,
        (List.range' (V + 1 - 10 + 1) 9).map (fun v => (self, v)) ++
          [(self, V + 1)]⟩ := by
  have hsplit : List.range' (V + 1 - 10) 10 =
      (V + 1 - 10) :: List.range' (V + 1 - 10 + 1) 9 :=
    List.range'_succ _ _ _
  simp only [compare_and_swap]
  rw [latest_version_snd, maxVersion_map_range self 10 _ (by omega),
    show V + 1 - 10 + 10 - 1 = V from by omega, if_neg (lt_irrefl V),
    if_neg hmem, hsplit, List.map_cons, List.cons_append, prune_cons, hkeep,
    if_pos (show ((self, V + 1 - 10) : VFile).2 +
        MAX_VERSION_FILES - 1 ≤ V from by
      simp only [MAX_VERSION_FILES]
      omega)]

theorem commit_step_big (self : WriterId) (V : Nat) (hVgt : 9 < V) :
    commit_round ((List.range' (V + 1 - 10) 10).map (fun v => (self, v)))
        self =
      (List.range' (V + 1 - 10 + 1) 10).map (fun v => (self, v)) := by
  have hmem : ((self, V + 1) : VFile) ∉
      (List.range' (V + 1 - 10) 10).map (fun v => (self, v)) := by
    simp only [List.mem_map, List.mem_range'_1]
    rintro ⟨v, hv, hveq⟩
    have : v = V + 1 := congrArg Prod.snd hveq
    omega
  have hkeep : prune_old_versions
      ((List.range' (V + 1 - 10 + 1) 9).map (fun v => (self, v)) ++
        [(self, V + 1)]) V =
      ((List.range' (V + 1 - 10 + 1) 9).map (fun v => (self, v)) ++
        [(self, V + 1)], 0) := by
    apply prune_keep_all
    intro f hf
    rcases List.mem_append.mp hf with hf | hf
    · simp only [List.mem_map, List.mem_range'_1] at hf
      obtain ⟨v, hv, rfl⟩ := hf
      simp only [MAX_VERSION_FILES]
      omega
    · simp only [List.mem_singleton] at hf
      subst hf
      simp only [MAX_VERSION_FILES]
      omega
  have hfin : (List.range' (V + 1 - 10 + 1) 9).map (fun v => (self, v)) ++
        [(self, V + 1)] =
      (List.range' (V + 1 - 10 + 1) 10).map (fun v => (self, v)) := by
    rw [show List.range' (V + 1 - 10 + 1) 10 =
        List.range' (V + 1 - 10 + 1) 9 ++ [V + 1] from by
      rw [List.range'_1_concat]
      congr 1
      simp only [List.cons.injEq, and_true]
      omega,
      List.map_append]
    rfl
  refine (commit_round_eq _ self V 1 _ ?_
    (cas_step_big self V hVgt hmem hkeep)).trans hfin
  rw [load_map_range self 10 _ (by omega),
    show V + 1 - 10 + 10 - 1 = V from by omega]

theorem commit_many_spec (self : WriterId) (V : Nat) :
    commit_many self V =
      (List.range' (V + 1 - min V MAX_VERSION_FILES)
          (min V MAX_VERSION_FILES)).map (fun v => (self, v)) := by
  induction V with
  | zero => rfl
  | succ V ih =>
    show commit_round (commit_many self V) self = _
    rw [ih]
    rcases Nat.eq_zero_or_pos V with hV0 | hVpos
    · subst hV0
      rfl
    · have h10 : (10 : Nat) = MAX_VERSION_FILES := rfl
      rcases le_or_lt V 9 with hVle | hVgt
      · rw [show min V MAX_VERSION_FILES = V from
            Nat.min_eq_left (by rw [← h10]; omega),
          show V + 1 - V = 1 from by omega,
          show min (V + 1) MAX_VERSION_FILES = V + 1 from
            Nat.min_eq_left (by rw [← h10]; omega),
          show V + 1 + 1 - (V + 1) = 1 from by omega]
        exact commit_step_small self V hVpos hVle
      · rw [show min V MAX_VERSION_FILES = 10 from
            Nat.min_eq_right (by rw [← h10]; omega),
          show min (V + 1) MAX_VERSION_FILES = 10 from
            Nat.min_eq_right (by rw [← h10]; omega),
          show V + 1 + 1 - 10 = V + 1 - 10 + 1 from by omega]
        exact commit_step_big self V hVgt

/-- C8: starting from an empty directory, after V successful
load-then-commit rounds exactly min(V, MAX_VERSION_FILES) version files
remain, and every remaining file belongs to this writer, carries a
version between 1 and V, and lags the newly committed version V by less
than the retention window MAX_VERSION_FILES. -/
theorem pruning_bound (self : WriterId) (V : Nat) :
    (commit_many self V).length = min V MAX_VERSION_FILES ∧
    ∀ f ∈ commit_many self V,
      f.1 = self ∧ 1 ≤ f.2 ∧ f.2 ≤ V ∧ V < f.2 + MAX_VERSION_FILES := by
  rw [commit_many_spec]
  constructor
  · simp
  · intro f hf
    simp only [List.mem_map, List.mem_range'_1] at hf
    obtain ⟨v, hv, rfl⟩ := hf
    have hmin1 : min V MAX_VERSION_FILES ≤ V := Nat.min_le_left _ _
    have hmin2 : min V MAX_VERSION_FILES ≤ MAX_VERSION_FILES :=
      Nat.min_le_right _ _
    have hM : MAX_VERSION_FILES = 10 := rfl
    exact ⟨rfl, by omega, by omega, by omega⟩

/-- C8 witness: after 13 commits by one writer, exactly 10 version files
remain, and version 4 (exactly at the edge of the retention window) is
among them. -/
theorem pruning_bound_witness :
    (commit_many "w." 13).length = min 13 MAX_VERSION_FILES ∧
    ((("w.", 4) : VFile).1 = "w." ∧ 1 ≤ (("w.", 4) : VFile).2 ∧
      (("w.", 4) : VFile).2 ≤ 13 ∧
      13 < (("w.", 4) : VFile).2 + MAX_VERSION_FILES) :=
  ⟨(pruning_bound "w." 13).1, (pruning_bound "w." 13).2 ("w.", 4) (by decide)⟩

theorem modifyLoop_never_alreadyExists (outs : List (Except IoErr Nat))
    (r : Except IoErr Nat) (h : modifyLoop outs = some r) :
    r ≠ Except.error IoErr.alreadyExists := by
  induction outs with
  | nil => simp [modifyLoop] at h
  | cons o rest ih =>
    match o with
    | Except.ok v =>
      simp [modifyLoop] at h
      rw [← h]
      intro hc
      cases hc
    | Except.error IoErr.alreadyExists =>
      exact ih (by simpa [modifyLoop] using h)
    | Except.error IoErr.notFound =>
      simp [modifyLoop] at h
      rw [← h]
      intro hc
      cases hc
    | Except.error (IoErr.other c) =>
      simp [modifyLoop] at h
      rw [← h]
      intro hc
      cases hc

/-- C2: a CAS attempt whose directory already holds a version higher than
the caller's fails with AlreadyExists and publishes nothing (the
directory is unchanged); the `modify` / `modify_json` retry loop never
lets an AlreadyExists escape to its caller, returns any other error of an
attempt immediately, and returns the first success immediately. -/
theorem cas_conflict_and_modify_retry :
    (∀ (dir : VDir) (self : WriterId) (cv : Nat),
       cv < (latest_version dir).2 →
         compare_and_swap dir self cv =
           ⟨Except.error IoErr.alreadyExists, dir⟩) ∧
    (∀ (outs : List (Except IoErr Nat)) (r : Except IoErr Nat),
       modifyLoop outs = some r → r ≠ Except.error IoErr.alreadyExists) ∧
    (∀ (e : IoErr) (outs : List (Except IoErr Nat)),
       e ≠ IoErr.alreadyExists →
         modifyLoop (Except.error e :: outs) = some (Except.error e)) ∧
    (∀ (v : Nat) (outs : List (Except IoErr Nat)),
       modifyLoop (Except.ok v :: outs) = some (Except.ok v)) := by
  refine ⟨?_, modifyLoop_never_alreadyExists, ?_, fun v outs => rfl⟩
  · intro dir self cv h
    simp [compare_and_swap, h]
  · intro e outs he
    match e with
    | IoErr.alreadyExists => exact absurd rfl he
    | IoErr.notFound => rfl
    | IoErr.other c => rfl

/-- C2 witness: the conflict, retry, error-return and success cases of the
theorem evaluated on concrete directories and attempt sequences. -/
theorem cas_conflict_and_modify_retry_witness :
    compare_and_swap [("a.", 3)] "b." 2 =
      ⟨Except.error IoErr.alreadyExists, [("a.", 3)]⟩ ∧
    (Except.ok 5 : Except IoErr Nat) ≠ Except.error IoErr.alreadyExists ∧
    modifyLoop [Except.error (IoErr.other 0)] =
      some (Except.error (IoErr.other 0)) ∧
    modifyLoop [Except.ok 7] = some (Except.ok 7) :=
  ⟨cas_conflict_and_modify_retry.1 [("a.", 3)] "b." 2 (by decide),
   cas_conflict_and_modify_retry.2.1 [Except.error IoErr.alreadyExists,
      Except.ok 5] (Except.ok 5) (by decide),
   cas_conflict_and_modify_retry.2.2.1 (IoErr.other 0) [] (by decide),
   cas_conflict_and_modify_retry.2.2.2 7 []⟩

theorem digitChar_isDigit : ∀ d, d < 10 → (digitChar d).isDigit = true := by
  decide

theorem charVal_digitChar : ∀ d, d < 10 → charVal (digitChar d) = d := by
  decide

theorem digitChar_props : ∀ d, d < 10 →
    digitChar d ≠ '-' ∧ digitChar d ≠ '[' ∧ digitChar d ≠ ']' ∧
    digitChar d ≠ ',' ∧ digitChar d ≠ '+' ∧ isWs (digitChar d) = false := by
  decide

theorem decChars_eq (fuel : Nat) : ∀ n : Nat, n ≤ fuel →
    decChars fuel n = ((Nat.digits 10 n).map digitChar).reverse := by
  induction fuel with
  | zero =>
    intro n hn
    have : n = 0 := by omega
    subst this
    simp [decChars]
  | succ fuel ih =>
    intro n hn
    by_cases h0 : n = 0
    · subst h0
      simp [decChars]
    · rw [show decChars (fuel + 1) n =
          decChars fuel (n / 10) ++ [digitChar (n % 10)] from by
        simp [decChars, h0]]
      have hdiv : n / 10 ≤ fuel := by
        have := Nat.div_lt_self (Nat.pos_of_ne_zero h0) (by norm_num : 1 < 10)
        omega
      rw [ih (n / 10) hdiv,
        Nat.digits_def' (by norm_num : (1 : ℕ) < 10) (Nat.pos_of_ne_zero h0)]
      simp

theorem natToChars_eq (n : Nat) (h0 : n ≠ 0) :
    natToChars n = ((Nat.digits 10 n).map digitChar).reverse := by
  rw [natToChars, if_neg h0, decChars_eq n n le_rfl]

theorem natToChars_mem (n : Nat) :
    ∀ c ∈ natToChars n, ∃ d, d < 10 ∧ c = digitChar d := by
  by_cases h0 : n = 0
  · subst h0
    intro c hc
    simp [natToChars] at hc
    exact ⟨0, by norm_num, by rw [hc]; rfl⟩
  · rw [natToChars_eq n h0]
    intro c hc
    simp only [List.mem_reverse, List.mem_map] at hc
    obtain ⟨d, hd, rfl⟩ := hc
    exact ⟨d, Nat.digits_lt_base (by norm_num) hd, rfl⟩

theorem natToChars_ne_nil (n : Nat) : natToChars n ≠ [] := by
  by_cases h0 : n = 0
  · subst h0
    simp [natToChars]
  · rw [natToChars_eq n h0]
    simp [Nat.digits_ne_nil_iff_ne_zero.mpr h0]

theorem foldl_val_digits (l : List Nat) (A : Nat) :
    List.foldl (fun a d => a * 10 + d) A l.reverse =
      A * 10 ^ l.length + Nat.ofDigits 10 l := by
  induction l generalizing A with
  | nil => simp
  | cons d t ih =>
    rw [List.reverse_cons, List.foldl_append, ih]
    simp only [List.foldl, Nat.ofDigits_cons, List.length_cons]
    ring

theorem natToChars_foldl (n : Nat) :
    (natToChars n).foldl (fun a c => a * 10 + charVal c) 0 = n := by
  by_cases h0 : n = 0
  · subst h0
    simp [natToChars]
    decide
  · rw [natToChars_eq n h0, ← List.map_reverse, List.foldl_map]
    have hext : List.foldl (fun a d => a * 10 + charVal (digitChar d)) 0
        (Nat.digits 10 n).reverse =
        List.foldl (fun a d => a * 10 + d) 0 (Nat.digits 10 n).reverse := by
      apply List.foldl_ext
      intro a b hb
      rw [charVal_digitChar b
        (Nat.digits_lt_base (by norm_num) (List.mem_reverse.mp hb))]
    rw [hext, foldl_val_digits]
    simpa using Nat.ofDigits_digits 10 n

theorem parseNatCore_natToChars (n bound : Nat) (h : n < bound) :
    parseNatCore (natToChars n) bound = some n := by
  unfold parseNatCore
  rw [if_neg (natToChars_ne_nil n)]
  have hall : (natToChars n).all Char.isDigit = true := by
    rw [List.all_eq_true]
    intro c hc
    obtain ⟨d, hd, rfl⟩ := natToChars_mem n c hc
    exact digitChar_isDigit d hd
  rw [hall]
  simp only [if_true]
  rw [natToChars_foldl, if_pos h]

theorem parseU64Chars_natToChars (n : Nat) (h : n < 2 ^ 64) :
    parseU64Chars (natToChars n) = some n := by
  rcases hnc : natToChars n with _ | ⟨c, cs⟩
  · exact absurd hnc (natToChars_ne_nil n)
  · have hc : c ≠ '+' := by
      have := natToChars_mem n c (by rw [hnc]; exact List.mem_cons_self _ _)
      obtain ⟨d, hd, rfl⟩ := this
      exact (digitChar_props d hd).2.2.2.2.1
    rw [parseU64Chars, if_neg hc, ← hnc]
    exact parseNatCore_natToChars n _ h

theorem parseU8Chars_natToChars (n : Nat) (h : n < 256) :
    parseU8Chars (natToChars n) = some n := by
  rcases hnc : natToChars n with _ | ⟨c, cs⟩
  · exact absurd hnc (natToChars_ne_nil n)
  · have hc : c ≠ '+' := by
      have := natToChars_mem n c (by rw [hnc]; exact List.mem_cons_self _ _)
      obtain ⟨d, hd, rfl⟩ := this
      exact (digitChar_props d hd).2.2.2.2.1
    rw [parseU8Chars, if_neg hc, ← hnc]
    exact parseNatCore_natToChars n _ h

theorem splitOnceChar_cons (sep c : Char) (rest : List Char) :
    splitOnceChar sep (c :: rest) =
      if c = sep then some ([], rest)
      else (splitOnceChar sep rest).map (fun pr => (c :: pr.1, pr.2)) := rfl

theorem splitOnceChar_append (sep : Char) (a b : List Char) (h : sep ∉ a) :
    splitOnceChar sep (a ++ sep :: b) = some (a, b) := by
  induction a with
  | nil => simp [splitOnceChar]
  | cons c t ih =>
    simp only [List.mem_cons, not_or] at h
    obtain ⟨h1, h2⟩ := h
    have hcs : ¬ (c = sep) := fun hh => h1 (Eq.symm hh)
    rw [List.cons_append, splitOnceChar_cons, if_neg hcs, ih h2]
    rfl

theorem dropWhile_eq_self_of_all (p : Char → Bool) (l : List Char)
    (h : ∀ c ∈ l, p c = false) : l.dropWhile p = l := by
  cases l with
  | nil => rfl
  | cons c t => simp [List.dropWhile_cons, h c (List.mem_cons_self _ _)]

theorem join_chars (bytes : List Nat) :
    ∀ c ∈ joinCommaSpace (bytes.map natToChars),
      (∃ d, d < 10 ∧ c = digitChar d) ∨ c = ',' ∨ c = ' ' := by
  induction bytes with
  | nil => simp [joinCommaSpace]
  | cons b bs ih =>
    cases bs with
    | nil =>
      intro c hc
      simp only [List.map_cons, List.map_nil, joinCommaSpace] at hc
      exact Or.inl (natToChars_mem b c hc)
    | cons b' bs' =>
      intro c hc
      simp only [List.map_cons, joinCommaSpace, List.mem_append,
        List.mem_cons] at hc
      rcases hc with hc | hc | hc | hc
      · exact Or.inl (natToChars_mem b c hc)
      · exact Or.inr (Or.inl hc)
      · exact Or.inr (Or.inr hc)
      · exact ih c (by simpa [joinCommaSpace] using hc)

theorem join_ne_nil (bytes : List Nat) (h : bytes ≠ []) :
    joinCommaSpace (bytes.map natToChars) ≠ [] := by
  cases bytes with
  | nil => contradiction
  | cons b bs =>
    cases bs with
    | nil =>
      simp only [List.map_cons, List.map_nil, joinCommaSpace]
      exact natToChars_ne_nil b
    | cons b' bs' =>
      simp only [List.map_cons, joinCommaSpace]
      intro hc
      exact natToChars_ne_nil b (List.append_eq_nil.mp hc).1

theorem strip_outer (body : List Char)
    (hall : ∀ c ∈ body, c ≠ '[' ∧ c ≠ ']') :
    trimEndMatches ']' (trimStartMatches '[' ('[' :: body ++ [']'])) =
      body := by
  have h1 : trimStartMatches '[' ('[' :: body ++ [']']) = body ++ [']'] := by
    unfold trimStartMatches
    rw [show ('[' :: body ++ [']'] : List Char) = '[' :: (body ++ [']'])
      from rfl]
    rw [List.dropWhile_cons_of_pos (by decide)]
    apply dropWhile_eq_self_of_all
    intro c hc
    rcases List.mem_append.mp hc with hc | hc
    · simp [(hall c hc).1]
    · simp only [List.mem_singleton] at hc
      subst hc
      decide
  rw [h1]
  unfold trimEndMatches
  rw [List.reverse_append]
  simp only [List.reverse_cons, List.reverse_nil, List.nil_append,
    List.singleton_append]
  rw [List.dropWhile_cons_of_pos (by decide)]
  rw [dropWhile_eq_self_of_all _ _ ?_, List.reverse_reverse]
  intro c hc
  rw [List.mem_reverse] at hc
  simp [(hall c hc).2]

theorem splitCommaSpace_cons2 (c1 c2 : Char) (r : List Char) :
    splitCommaSpace (c1 :: c2 :: r) =
      if c1 = ',' ∧ c2 = ' ' then [] :: splitCommaSpace r
      else
        match splitCommaSpace (c2 :: r) with
        | [] => [[c1]]
        | piece :: pieces => (c1 :: piece) :: pieces := rfl

theorem splitCommaSpace_no_comma (p : List Char)
    (h : ∀ c ∈ p, c ≠ ',') : splitCommaSpace p = [p] := by
  induction p with
  | nil => rfl
  | cons c t ih =>
    cases t with
    | nil => rfl
    | cons c2 t2 =>
      have hc : ¬ (c = ',' ∧ c2 = ' ') :=
        fun hh => h c (List.mem_cons_self _ _) hh.1
      have ht := ih (fun x hx => h x (List.mem_cons_of_mem _ hx))
      rw [splitCommaSpace_cons2, if_neg hc, ht]

theorem splitCommaSpace_prepend (p : List Char) (rest : List Char)
    (h : ∀ c ∈ p, c ≠ ',') :
    splitCommaSpace (p ++ ',' :: ' ' :: rest) =
      p :: splitCommaSpace rest := by
  induction p with
  | nil =>
    rw [List.nil_append, splitCommaSpace_cons2, if_pos ⟨rfl, rfl⟩]
  | cons c t ih =>
    have hc : c ≠ ',' := h c (List.mem_cons_self _ _)
    have hcc : ∀ x : Char, ¬ (c = ',' ∧ x = ' ') := fun x hh => hc hh.1
    have ht := ih (fun x hx => h x (List.mem_cons_of_mem _ hx))
    cases t with
    | nil =>
      rw [List.nil_append] at ht
      rw [List.cons_append, List.nil_append, splitCommaSpace_cons2,
        if_neg (hcc ','), ht]
    | cons c2 t2 =>
      rw [List.cons_append] at ht
      rw [List.cons_append, List.cons_append, splitCommaSpace_cons2,
        if_neg (hcc c2), ht]

theorem splitCommaSpace_join (pieces : List (List Char)) (hne : pieces ≠ [])
    (hnc : ∀ p ∈ pieces, ∀ c ∈ p, c ≠ ',') :
    splitCommaSpace (joinCommaSpace pieces) = pieces := by
  induction pieces with
  | nil => contradiction
  | cons p ps ih =>
    cases ps with
    | nil =>
      simp only [joinCommaSpace]
      exact splitCommaSpace_no_comma p (hnc p (List.mem_cons_self _ _))
    | cons q qs =>
      have hjoin : joinCommaSpace (p :: q :: qs) =
          p ++ ',' :: ' ' :: joinCommaSpace (q :: qs) := rfl
      rw [hjoin,
        splitCommaSpace_prepend p _ (hnc p (List.mem_cons_self _ _)),
        ih (by simp) (fun x hx => hnc x (List.mem_cons_of_mem _ hx))]

theorem trimChars_natToChars (n : Nat) :
    trimChars (natToChars n) = natToChars n := by
  have hws : ∀ c ∈ natToChars n, isWs c = false := by
    intro c hc
    obtain ⟨d, hd, rfl⟩ := natToChars_mem n c hc
    exact (digitChar_props d hd).2.2.2.2.2
  unfold trimChars
  rw [dropWhile_eq_self_of_all _ _ hws,
    dropWhile_eq_self_of_all _ _ (fun c hc =>
      hws c (List.mem_reverse.mp hc)),
    List.reverse_reverse]

theorem mapM_parse_pieces (bytes : List Nat) (h : ∀ b ∈ bytes, b < 256) :
    (bytes.map natToChars).mapM (fun p => parseU8Chars (trimChars p)) =
      some bytes := by
  induction bytes with
  | nil => rfl
  | cons b bs ih =>
    have hb := h b (List.mem_cons_self _ _)
    have hbs := ih (fun x hx => h x (List.mem_cons_of_mem _ hx))
    simp only [List.map_cons, List.mapM_cons, trimChars_natToChars,
      parseU8Chars_natToChars b hb, hbs]
    rfl

theorem fromStr_display_debug (size : Nat) (bytes : List Nat)
    (hsize : size < 2 ^ 64) (hlen : bytes.length = 32)
    (hb : ∀ b ∈ bytes, b < 256) :
    fromStrRIdDebug (displayRIdDebug ⟨size, bytes⟩) =
      Except.ok ⟨size, bytes⟩ := by
  have hbne : bytes ≠ [] := by
    intro hh
    rw [hh] at hlen
    simp at hlen
  have hnodash : '-' ∉ natToChars size := by
    intro hc
    obtain ⟨d, hd, hdc⟩ := natToChars_mem size '-' hc
    exact (digitChar_props d hd).1 hdc.symm
  have hjall : ∀ c ∈ joinCommaSpace (bytes.map natToChars),
      c ≠ '[' ∧ c ≠ ']' := by
    intro c hc
    rcases join_chars bytes c hc with ⟨d, hd, rfl⟩ | rfl | rfl
    · exact ⟨(digitChar_props d hd).2.1, (digitChar_props d hd).2.2.1⟩
    · exact ⟨by decide, by decide⟩
    · exact ⟨by decide, by decide⟩
  have hnc : ∀ p ∈ bytes.map natToChars, ∀ c ∈ p, c ≠ ',' := by
    intro p hp c hc
    simp only [List.mem_map] at hp
    obtain ⟨x, _, rfl⟩ := hp
    obtain ⟨d, hd, rfl⟩ := natToChars_mem x c hc
    exact (digitChar_props d hd).2.2.2.1
  have h1 : splitOnceChar '-' (displayRIdDebug ⟨size, bytes⟩) =
      some (natToChars size,
        '[' :: joinCommaSpace (bytes.map natToChars) ++ [']']) :=
    splitOnceChar_append '-' _ _ hnodash
  have h3 : trimEndMatches ']' (trimStartMatches '['
      ('[' :: joinCommaSpace (bytes.map natToChars) ++ [']'])) =
      joinCommaSpace (bytes.map natToChars) := strip_outer _ hjall
  have h4 : splitCommaSpace (joinCommaSpace (bytes.map natToChars)) =
      bytes.map natToChars :=
    splitCommaSpace_join _ (by simpa using hbne) hnc
  have h5 : (bytes.map natToChars).length = 32 := by
    rw [List.length_map, hlen]
  simp only [fromStrRIdDebug, h1, parseU64Chars_natToChars size hsize, h3,
    h4, h5, if_pos, mapM_parse_pieces bytes hb]

theorem b64IndexOf_charOf : ∀ i, i < 64 → b64IndexOf (b64CharOf i) = some i := by
  decide

theorem b64CharOf_ne_pad : ∀ i, i < 64 → b64CharOf i ≠ '=' := by
  decide

theorem b64Encode_ne_nil (bytes : List Nat) (h : bytes ≠ []) :
    b64Encode bytes ≠ [] := by
  rcases bytes with _ | ⟨b0, _ | ⟨b1, _ | ⟨b2, rest⟩⟩⟩ <;>
    simp [b64Encode] at h ⊢

theorem b64Decode_four (c0 c1 c2 c3 : Char) :
    b64Decode [c0, c1, c2, c3] =
      (if c2 = '=' ∧ c3 = '=' then b64DecodePad2 c0 c1
       else if c3 = '=' then b64DecodePad1 c0 c1 c2
       else b64DecodeGroup c0 c1 c2 c3) := rfl

theorem b64Decode_more (c0 c1 c2 c3 c4 : Char) (rest : List Char) :
    b64Decode (c0 :: c1 :: c2 :: c3 :: c4 :: rest) =
      (match b64DecodeGroup c0 c1 c2 c3, b64Decode (c4 :: rest) with
       | some g, some tail => some (g ++ tail)
       | _, _ => none) := rfl

theorem b64_roundtrip : ∀ (bytes : List Nat), (∀ b ∈ bytes, b < 256) →
    b64Decode (b64Encode bytes) = some bytes
  | [], _ => rfl
  | [b0], h => by
    have h0 : b0 < 256 := h b0 (by simp)
    show b64Decode [b64CharOf (b0 / 4), b64CharOf (b0 % 4 * 16), '=', '='] =
      some [b0]
    rw [b64Decode_four, if_pos ⟨rfl, rfl⟩]
    unfold b64DecodePad2
    rw [b64IndexOf_charOf (b0 / 4) (by omega),
      b64IndexOf_charOf (b0 % 4 * 16) (by omega)]
    show (if b0 % 4 * 16 % 16 = 0 then
      some [b0 / 4 * 4 + b0 % 4 * 16 / 16] else none) = some [b0]
    rw [if_pos (Nat.mul_mod_left _ _), show b0 / 4 * 4 + b0 % 4 * 16 / 16 = b0
      from by omega]
  | [b0, b1], h => by
    have h0 : b0 < 256 := h b0 (by simp)
    have h1 : b1 < 256 := h b1 (by simp)
    show b64Decode [b64CharOf (b0 / 4), b64CharOf (b0 % 4 * 16 + b1 / 16),
      b64CharOf (b1 % 16 * 4), '='] = some [b0, b1]
    rw [b64Decode_four,
      if_neg (fun hh => b64CharOf_ne_pad (b1 % 16 * 4) (by omega) hh.1),
      if_pos rfl]
    unfold b64DecodePad1
    rw [b64IndexOf_charOf (b0 / 4) (by omega),
      b64IndexOf_charOf (b0 % 4 * 16 + b1 / 16) (by omega),
      b64IndexOf_charOf (b1 % 16 * 4) (by omega)]
    show (if b1 % 16 * 4 % 4 = 0 then
      some [b0 / 4 * 4 + (b0 % 4 * 16 + b1 / 16) / 16,
        (b0 % 4 * 16 + b1 / 16) % 16 * 16 + b1 % 16 * 4 / 4]
      else none) = some [b0, b1]
    rw [if_pos (Nat.mul_mod_left _ _),
      show b0 / 4 * 4 + (b0 % 4 * 16 + b1 / 16) / 16 = b0 from by omega,
      show (b0 % 4 * 16 + b1 / 16) % 16 * 16 + b1 % 16 * 4 / 4 = b1
        from by omega]
  | b0 :: b1 :: b2 :: rest, h => by
    have h0 : b0 < 256 := h b0 (by simp)
    have h1 : b1 < 256 := h b1 (by simp)
    have h2 : b2 < 256 := h b2 (by simp)
    have hgroup : b64DecodeGroup (b64CharOf (b0 / 4))
        (b64CharOf (b0 % 4 * 16 + b1 / 16))
        (b64CharOf (b1 % 16 * 4 + b2 / 64)) (b64CharOf (b2 % 64)) =
        some [b0, b1, b2] := by
      unfold b64DecodeGroup
      rw [b64IndexOf_charOf (b0 / 4) (by omega),
        b64IndexOf_charOf (b0 % 4 * 16 + b1 / 16) (by omega),
        b64IndexOf_charOf (b1 % 16 * 4 + b2 / 64) (by omega),
        b64IndexOf_charOf (b2 % 64) (by omega)]
      show some [b0 / 4 * 4 + (b0 % 4 * 16 + b1 / 16) / 16,
        (b0 % 4 * 16 + b1 / 16) % 16 * 16 + (b1 % 16 * 4 + b2 / 64) / 4,
        (b1 % 16 * 4 + b2 / 64) % 4 * 64 + b2 % 64] = some [b0, b1, b2]
      rw [show b0 / 4 * 4 + (b0 % 4 * 16 + b1 / 16) / 16 = b0 from by omega,
        show (b0 % 4 * 16 + b1 / 16) % 16 * 16 +
          (b1 % 16 * 4 + b2 / 64) / 4 = b1 from by omega,
        show (b1 % 16 * 4 + b2 / 64) % 4 * 64 + b2 % 64 = b2 from by omega]
    rcases rest with _ | ⟨r0, rrest⟩
    · show b64Decode [b64CharOf (b0 / 4), b64CharOf (b0 % 4 * 16 + b1 / 16),
        b64CharOf (b1 % 16 * 4 + b2 / 64), b64CharOf (b2 % 64)] =
        some [b0, b1, b2]
      rw [b64Decode_four,
        if_neg (fun hh =>
          b64CharOf_ne_pad (b1 % 16 * 4 + b2 / 64) (by omega) hh.1),
        if_neg (b64CharOf_ne_pad (b2 % 64) (by omega)), hgroup]
    · have htail := b64_roundtrip (r0 :: rrest)
        (fun x hx => h x (by simp [List.mem_cons] at hx ⊢; tauto))
      obtain ⟨e0, es, hes⟩ : ∃ e0 es, b64Encode (r0 :: rrest) = e0 :: es := by
        rcases hE : b64Encode (r0 :: rrest) with _ | ⟨e0, es⟩
        · exact absurd hE (b64Encode_ne_nil (r0 :: rrest) (by simp))
        · exact ⟨e0, es, rfl⟩
      show b64Decode (b64CharOf (b0 / 4) ::
        b64CharOf (b0 % 4 * 16 + b1 / 16) ::
        b64CharOf (b1 % 16 * 4 + b2 / 64) :: b64CharOf (b2 % 64) ::
        b64Encode (r0 :: rrest)) = some (b0 :: b1 :: b2 :: r0 :: rrest)
      rw [hes, b64Decode_more, ← hes, htail, hgroup]
      rfl

theorem fromStr_display_b3 (size : Nat) (bytes : List Nat)
    (hsize : size < 2 ^ 64) (hlen : bytes.length = 32)
    (hb : ∀ b ∈ bytes, b < 256) :
    fromStrRIdB3 (displayRIdB3 ⟨size, bytes⟩) =
      ParseOutcome.ok ⟨size, bytes⟩ := by
  have hnodash : '-' ∉ natToChars size := by
    intro hc
    obtain ⟨d, hd, hdc⟩ := natToChars_mem size '-' hc
    exact (digitChar_props d hd).1 hdc.symm
  have h1 : splitOnceChar '-' (displayRIdB3 ⟨size, bytes⟩) =
      some (natToChars size, b64Encode bytes) :=
    splitOnceChar_append '-' _ _ hnodash
  simp only [fromStrRIdB3, h1, parseU64Chars_natToChars size hsize,
    b64_roundtrip bytes hb, hlen]
  rfl

/-- C6: the resource-identifier string encoding round-trips for both
implementations: for every identifier (u64 size, 32 hash bytes), parsing
the canonical "{size}-{hash}" rendering — the Debug byte-array form of
src/id.rs and the base64 form of src/resource/blake3.rs — returns an
identifier equal to the original. -/
theorem resource_id_string_roundtrip (size : Nat) (bytes : List Nat)
    (hsize : size < 2 ^ 64) (hlen : bytes.length = 32)
    (hb : ∀ b ∈ bytes, b < 256) :
    fromStrRIdDebug (displayRIdDebug ⟨size, bytes⟩) =
      Except.ok ⟨size, bytes⟩ ∧
    fromStrRIdB3 (displayRIdB3 ⟨size, bytes⟩) =
      ParseOutcome.ok ⟨size, bytes⟩ :=
  ⟨fromStr_display_debug size bytes hsize hlen hb,
   fromStr_display_b3 size bytes hsize hlen hb⟩

/-- C6 witness: the round trip evaluated on the concrete identifier with
size 13 and hash bytes 0..31. -/
theorem resource_id_string_roundtrip_witness :
    fromStrRIdDebug (displayRIdDebug ⟨13, List.range 32⟩) =
      Except.ok ⟨13, List.range 32⟩ ∧
    fromStrRIdB3 (displayRIdB3 ⟨13, List.range 32⟩) =
      ParseOutcome.ok ⟨13, List.range 32⟩ :=
  resource_id_string_roundtrip 13 (List.range 32) (by norm_num) (by decide)
    (by decide)

theorem alGet_eq_none_iff {K V : Type} [DecidableEq K]
    (l : List (K × V)) (k : K) :
    alGet l k = none ↔ k ∉ l.map Prod.fst := by
  induction l with
  | nil => simp [alGet]
  | cons hd t ih =>
    obtain ⟨k', v⟩ := hd
    by_cases hk : k' = k
    · subst hk
      simp [alGet]
    · simp only [List.map_cons, List.mem_cons, not_or]
      rw [show alGet ((k', v) :: t) k = alGet t k from by simp [alGet, hk], ih]
      constructor
      · exact fun h => ⟨fun hh => hk (Eq.symm hh), h⟩
      · exact fun h => h.2

theorem alGet_mem {K V : Type} [DecidableEq K]
    (l : List (K × V)) (k : K) (v : V) (h : alGet l k = some v) :
    (k, v) ∈ l := by
  induction l with
  | nil => simp [alGet] at h
  | cons hd t ih =>
    obtain ⟨k', v'⟩ := hd
    by_cases hk : k' = k
    · subst hk
      rw [show alGet ((k', v') :: t) k' = some v' from by simp [alGet]] at h
      injection h with h2
      rw [← h2]
      exact List.mem_cons_self _ _
    · rw [show alGet ((k', v') :: t) k = alGet t k from by simp [alGet, hk]]
        at h
      exact List.mem_cons_of_mem _ (ih h)

theorem assoc_nodup_unique {K V : Type} [DecidableEq K]
    {l : List (K × V)} (hnd : (l.map Prod.fst).Nodup) {k : K} {a b : V}
    (ha : (k, a) ∈ l) (hb : (k, b) ∈ l) : a = b := by
  induction l with
  | nil => simp at ha
  | cons hd t ih =>
    obtain ⟨k', v⟩ := hd
    simp only [List.map_cons, List.nodup_cons] at hnd
    rcases List.mem_cons.mp ha with ha1 | ha1 <;>
      rcases List.mem_cons.mp hb with hb1 | hb1
    · rw [Prod.mk.injEq] at ha1 hb1
      rw [ha1.2, hb1.2]
    · exfalso
      apply hnd.1
      rw [Prod.mk.injEq] at ha1
      rw [← ha1.1]
      exact List.mem_map_of_mem Prod.fst hb1
    · exfalso
      apply hnd.1
      rw [Prod.mk.injEq] at hb1
      rw [← hb1.1]
      exact List.mem_map_of_mem Prod.fst ha1
    · exact ih hnd.2 ha1 hb1

theorem truncMs_le (t : Nat) : truncMs t ≤ t := by
  unfold truncMs
  omega

theorem truncMs_close (t : Nat) : t - truncMs t < 1000000 := by
  unfold truncMs
  omega

theorem insert_entry_path2id (idx : ResourceIndex) (p : FPath)
    (e : IndexEntry) :
    (insert_entry idx p e).path2id = alInsert idx.path2id p e := by
  simp only [insert_entry]
  cases hg : alGet idx.id2path e.id with
  | none => rfl
  | some w =>
    cases hg2 : alGet idx.collisions e.id with
    | none => rfl
    | some k => rfl

theorem insert_entry_id2path (idx : ResourceIndex) (p : FPath)
    (e : IndexEntry) :
    (insert_entry idx p e).id2path =
      match alGet idx.id2path e.id with
      | none => alInsert idx.id2path e.id p
      | some _ => idx.id2path := by
  simp only [insert_entry]
  cases hg : alGet idx.id2path e.id with
  | none => rfl
  | some w =>
    cases hg2 : alGet idx.collisions e.id with
    | none => rfl
    | some k => rfl

theorem insert_entry_id2path_mono (idx : ResourceIndex) (p : FPath)
    (e : IndexEntry) (i : ResourceId) (h : alGet idx.id2path i ≠ none) :
    alGet (insert_entry idx p e).id2path i ≠ none := by
  rw [insert_entry_id2path]
  cases hg : alGet idx.id2path e.id with
  | none =>
    by_cases hi : i = e.id
    · subst hi
      rw [alGet_alInsert_self]
      exact Option.some_ne_none _
    · rw [alGet_alInsert_ne _ _ _ _ hi]
      exact h
  | some w => exact h

theorem insert_many_path2id_mono (l : List (FPath × IndexEntry)) :
    ∀ (idx : ResourceIndex) (p : FPath),
      alGet idx.path2id p ≠ none →
        alGet (insert_many idx l).path2id p ≠ none := by
  induction l with
  | nil => exact fun idx p h => h
  | cons hd t ih =>
    obtain ⟨q, e⟩ := hd
    intro idx p h
    apply ih
    rw [insert_entry_path2id]
    by_cases hpq : q = p
    · subst hpq
      rw [alGet_alInsert_self]
      exact Option.some_ne_none _
    · rw [alGet_alInsert_ne _ _ _ _ (fun hh => hpq (Eq.symm hh))]
      exact h

theorem insert_many_id2path_mono (l : List (FPath × IndexEntry)) :
    ∀ (idx : ResourceIndex) (i : ResourceId),
      alGet idx.id2path i ≠ none →
        alGet (insert_many idx l).id2path i ≠ none := by
  induction l with
  | nil => exact fun idx i h => h
  | cons hd t ih =>
    obtain ⟨q, e⟩ := hd
    intro idx i h
    exact ih _ _ (insert_entry_id2path_mono idx q e i h)

theorem insert_many_not_mem (l : List (FPath × IndexEntry)) :
    ∀ (idx : ResourceIndex) (p : FPath), p ∉ l.map Prod.fst →
      alGet (insert_many idx l).path2id p = alGet idx.path2id p := by
  induction l with
  | nil => exact fun idx p _ => rfl
  | cons hd t ih =>
    obtain ⟨q, e⟩ := hd
    intro idx p hp
    simp only [List.map_cons, List.mem_cons, not_or] at hp
    rw [show insert_many idx ((q, e) :: t) = insert_many (insert_entry idx q e) t
        from rfl,
      ih _ _ hp.2, insert_entry_path2id,
      alGet_alInsert_ne _ _ _ _ hp.1]

theorem insert_many_mem_path2id (l : List (FPath × IndexEntry)) :
    ∀ (idx : ResourceIndex) (p : FPath) (e : IndexEntry),
      (l.map Prod.fst).Nodup → (p, e) ∈ l →
        alGet (insert_many idx l).path2id p = some e := by
  induction l with
  | nil => simp
  | cons hd t ih =>
    obtain ⟨q, e'⟩ := hd
    intro idx p e hnd hmem
    simp only [List.map_cons, List.nodup_cons] at hnd
    rcases List.mem_cons.mp hmem with h1 | h1
    · rw [Prod.mk.injEq] at h1
      obtain ⟨rfl, rfl⟩ := h1
      show alGet (insert_many (insert_entry idx p e) t).path2id p = some e
      rw [insert_many_not_mem t _ p hnd.1, insert_entry_path2id,
        alGet_alInsert_self]
    · exact ih _ p e hnd.2 h1

theorem scan_entries_mem (l : List (FPath × FsFile)) (p : FPath)
    (e : IndexEntry) :
    (p, e) ∈ scan_entries l ↔
      ∃ f, (p, f) ∈ l ∧ scan_entry f = some e := by
  induction l with
  | nil => simp [scan_entries]
  | cons hd t ih =>
    obtain ⟨q, f⟩ := hd
    cases hs : scan_entry f with
    | none =>
      rw [show scan_entries ((q, f) :: t) = scan_entries t from by
        simp [scan_entries, hs], ih]
      constructor
      · rintro ⟨g, hg, hg2⟩
        exact ⟨g, List.mem_cons_of_mem _ hg, hg2⟩
      · rintro ⟨g, hg, hg2⟩
        rcases List.mem_cons.mp hg with hg1 | hg1
        · rw [Prod.mk.injEq] at hg1
          obtain ⟨rfl, rfl⟩ := hg1
          rw [hs] at hg2
          cases hg2
        · exact ⟨g, hg1, hg2⟩
    | some e' =>
      rw [show scan_entries ((q, f) :: t) = (q, e') :: scan_entries t from by
        simp [scan_entries, hs]]
      constructor
      · intro hm
        rcases List.mem_cons.mp hm with hm1 | hm1
        · rw [Prod.mk.injEq] at hm1
          obtain ⟨rfl, rfl⟩ := hm1
          exact ⟨f, List.mem_cons_self _ _, hs⟩
        · obtain ⟨g, hg, hg2⟩ := (ih).mp hm1
          exact ⟨g, List.mem_cons_of_mem _ hg, hg2⟩
      · rintro ⟨g, hg, hg2⟩
        rcases List.mem_cons.mp hg with hg1 | hg1
        · rw [Prod.mk.injEq] at hg1
          obtain ⟨rfl, rfl⟩ := hg1
          rw [hs] at hg2
          injection hg2 with hg3
          rw [← hg3]
          exact List.mem_cons_self _ _
        · exact List.mem_cons_of_mem _ ((ih).mpr ⟨g, hg1, hg2⟩)

theorem scan_entries_keys (l : List (FPath × FsFile)) :
    List.Sublist ((scan_entries l).map Prod.fst) (l.map Prod.fst) := by
  induction l with
  | nil => simp [scan_entries]
  | cons hd t ih =>
    obtain ⟨q, f⟩ := hd
    cases hs : scan_entry f with
    | none =>
      rw [show scan_entries ((q, f) :: t) = scan_entries t from by
        simp [scan_entries, hs]]
      exact List.Sublist.trans ih (List.sublist_cons_self _ _)
    | some e =>
      rw [show scan_entries ((q, f) :: t) = (q, e) :: scan_entries t from by
        simp [scan_entries, hs]]
      simpa using List.Sublist.cons₂ q ih

theorem delete_paths_path2id (ps : List FPath) :
    ∀ (idx : ResourceIndex) (acc : List ResourceId) (q : FPath),
      alGet (delete_paths idx acc ps).1.path2id q =
        if q ∈ ps then none else alGet idx.path2id q := by
  induction ps with
  | nil =>
    intro idx acc q
    simp [delete_paths]
  | cons p rest ih =>
    intro idx acc q
    have hfinish : ∀ (idx' : ResourceIndex) (acc' : List ResourceId),
        idx'.path2id = alRemove idx.path2id p →
        alGet (delete_paths idx' acc' rest).1.path2id q =
          if q ∈ p :: rest then none else alGet idx.path2id q := by
      intro idx' acc' hp2
      rw [ih idx' acc' q, hp2]
      by_cases hq : q ∈ rest
      · simp [hq, List.mem_cons]
      · by_cases hqp : q = p
        · subst hqp
          simp [hq, alGet_alRemove_self]
        · simp [hq, hqp, List.mem_cons,
            alGet_alRemove_ne idx.path2id p q hqp]
    cases hg : alGet idx.path2id p with
    | some entry =>
      simp only [delete_paths, hg]
      split
      · exact hfinish _ _ rfl
      · exact hfinish _ _ rfl
    | none =>
      rw [show delete_paths idx acc (p :: rest) = delete_paths idx acc rest
        from by simp only [delete_paths, hg], ih]
      by_cases hqp : q = p
      · subst hqp
        by_cases hq : q ∈ rest <;> simp [hq, List.mem_cons, hg]
      · by_cases hq : q ∈ rest <;> simp [hq, hqp, List.mem_cons]

theorem update_all_eq_ok (idx : ResourceIndex) (fs : FileSys)
    (updated : List (FPath × FsFile))
    (h : detect_updated idx fs (preservedOf idx fs) = Except.ok updated) :
    update_all idx fs =
      Except.ok
        (⟨(delete_paths idx [] (pathsToDeleteOf idx fs updated)).2,
          (addedOf idx fs updated
            (delete_paths idx [] (pathsToDeleteOf idx fs updated)).1).map
              (fun pe => (pe.1, pe.2.id))⟩,
         insert_many (delete_paths idx [] (pathsToDeleteOf idx fs updated)).1
           (addedOf idx fs updated
             (delete_paths idx [] (pathsToDeleteOf idx fs updated)).1)) := by
  simp only [preservedOf] at h
  simp only [update_all, h, preservedOf, createdOf, pathsToDeleteOf, freshOf,
    addedOf]

theorem update_all_eq_err (idx : ResourceIndex) (fs : FileSys) (e : ArkErr)
    (h : detect_updated idx fs (preservedOf idx fs) = Except.error e) :
    update_all idx fs = Except.error e := by
  simp only [preservedOf] at h
  simp only [update_all, h]

theorem scan_entry_eq_some (f : FsFile) (e : IndexEntry)
    (h : scan_entry f = some e) :
    ∃ i t, f.rid = some i ∧ f.mtime = some t ∧ e = ⟨truncMs t, i⟩ := by
  cases hr : f.rid with
  | none => simp [scan_entry, hr] at h
  | some i =>
    cases ht : f.mtime with
    | none => simp [scan_entry, hr, ht] at h
    | some t =>
      refine ⟨i, t, rfl, rfl, ?_⟩
      simp only [scan_entry, hr, ht] at h
      injection h with h2
      exact h2.symm

theorem insert_entry_id2path_ne_none (idx : ResourceIndex) (p : FPath)
    (e : IndexEntry) :
    alGet (insert_entry idx p e).id2path e.id ≠ none := by
  rw [insert_entry_id2path]
  cases hg : alGet idx.id2path e.id with
  | none =>
    rw [alGet_alInsert_self]
    exact Option.some_ne_none _
  | some w =>
    rw [hg]
    exact Option.some_ne_none _

theorem insert_many_mem_id2path (l : List (FPath × IndexEntry)) :
    ∀ (idx : ResourceIndex) (p : FPath) (e : IndexEntry), (p, e) ∈ l →
      alGet (insert_many idx l).id2path e.id ≠ none := by
  induction l with
  | nil => simp
  | cons hd t ih =>
    obtain ⟨q, e'⟩ := hd
    intro idx p e hm
    rcases List.mem_cons.mp hm with h1 | h1
    · rw [Prod.mk.injEq] at h1
      obtain ⟨rfl, rfl⟩ := h1
      show alGet (insert_many (insert_entry idx p e) t).id2path e.id ≠ none
      exact insert_many_id2path_mono t _ _ (insert_entry_id2path_ne_none idx p e)
    · exact ih _ p e h1

theorem detect_updated_sublist (idx : ResourceIndex) (fs : FileSys) :
    ∀ (preserved : List FPath) (updated : List (FPath × FsFile)),
      detect_updated idx fs preserved = Except.ok updated →
      List.Sublist updated fs := by
  induction fs with
  | nil =>
    intro preserved updated h
    simp only [detect_updated] at h
    injection h with h2
    rw [← h2]
  | cons hd rest ih =>
    obtain ⟨p, f⟩ := hd
    intro preserved updated h
    simp only [detect_updated] at h
    by_cases hp : p ∈ preserved
    · rw [if_pos hp] at h
      cases hg : alGet idx.path2id p with
      | none =>
        simp only [hg] at h
        exact List.Sublist.trans (ih _ _ h) (List.sublist_cons_self _ _)
      | some en =>
        simp only [hg] at h
        cases ht : f.mtime with
        | none =>
          simp only [ht] at h
          exact List.Sublist.trans (ih _ _ h) (List.sublist_cons_self _ _)
        | some t =>
          simp only [ht] at h
          by_cases h1 : t < en.modified
          · rw [if_pos h1] at h
            exact Except.noConfusion h
          · rw [if_neg h1] at h
            by_cases h2 : RESOURCE_UPDATED_THRESHOLD ≤ t - en.modified
            · rw [if_pos h2] at h
              cases hx : detect_updated idx rest preserved with
              | error e =>
                rw [hx] at h
                exact Except.noConfusion h
              | ok l =>
                rw [hx] at h
                have h2' : Except.ok ((p, f) :: l) = Except.ok updated := h
                injection h2' with h3
                rw [← h3]
                exact List.Sublist.cons₂ _ (ih _ _ hx)
            · rw [if_neg h2] at h
              exact List.Sublist.trans (ih _ _ h) (List.sublist_cons_self _ _)
    · rw [if_neg hp] at h
      exact List.Sublist.trans (ih _ _ h) (List.sublist_cons_self _ _)

theorem detect_updated_mem_pres (idx : ResourceIndex) (fs : FileSys) :
    ∀ (preserved : List FPath) (updated : List (FPath × FsFile)),
      detect_updated idx fs preserved = Except.ok updated →
      ∀ q g, (q, g) ∈ updated → q ∈ preserved := by
  induction fs with
  | nil =>
    intro preserved updated h q g hm
    simp only [detect_updated] at h
    injection h with h2
    rw [← h2] at hm
    simp at hm
  | cons hd rest ih =>
    obtain ⟨p, f⟩ := hd
    intro preserved updated h q g hm
    simp only [detect_updated] at h
    by_cases hp : p ∈ preserved
    · rw [if_pos hp] at h
      cases hg : alGet idx.path2id p with
      | none =>
        simp only [hg] at h
        exact ih _ _ h q g hm
      | some en =>
        simp only [hg] at h
        cases ht : f.mtime with
        | none =>
          simp only [ht] at h
          exact ih _ _ h q g hm
        | some t =>
          simp only [ht] at h
          by_cases h1 : t < en.modified
          · rw [if_pos h1] at h
            exact Except.noConfusion h
          · rw [if_neg h1] at h
            by_cases h2 : RESOURCE_UPDATED_THRESHOLD ≤ t - en.modified
            · rw [if_pos h2] at h
              cases hx : detect_updated idx rest preserved with
              | error e =>
                rw [hx] at h
                exact Except.noConfusion h
              | ok l =>
                rw [hx] at h
                have h2' : Except.ok ((p, f) :: l) = Except.ok updated := h
                injection h2' with h3
                rw [← h3] at hm
                rcases List.mem_cons.mp hm with hm1 | hm1
                · rw [Prod.mk.injEq] at hm1
                  rw [hm1.1]
                  exact hp
                · exact ih _ _ hx q g hm1
            · rw [if_neg h2] at h
              exact ih _ _ h q g hm
    · rw [if_neg hp] at h
      exact ih _ _ h q g hm

theorem detect_updated_bound (idx : ResourceIndex) (fs : FileSys) :
    ∀ (preserved : List FPath) (updated : List (FPath × FsFile)),
      detect_updated idx fs preserved = Except.ok updated →
      ∀ p f, (p, f) ∈ fs → p ∈ preserved →
        ∀ en, alGet idx.path2id p = some en →
          ∀ t, f.mtime = some t →
            en.modified ≤ t ∧
              (p ∉ updated.map Prod.fst →
                t - en.modified < RESOURCE_UPDATED_THRESHOLD) := by
  induction fs with
  | nil =>
    intro preserved updated h p f hm
    simp at hm
  | cons hd rest ih =>
    obtain ⟨q, g⟩ := hd
    intro preserved updated h p f hm hp en hen t ht
    simp only [detect_updated] at h
    rcases List.mem_cons.mp hm with hm1 | hm1
    · rw [Prod.mk.injEq] at hm1
      obtain ⟨rfl, rfl⟩ := hm1
      rw [if_pos hp] at h
      simp only [hen] at h
      simp only [ht] at h
      by_cases hlt : t < en.modified
      · rw [if_pos hlt] at h
        exact Except.noConfusion h
      · rw [if_neg hlt] at h
        refine ⟨Nat.le_of_not_lt hlt, ?_⟩
        by_cases hth : RESOURCE_UPDATED_THRESHOLD ≤ t - en.modified
        · rw [if_pos hth] at h
          cases hx : detect_updated idx rest preserved with
          | error e =>
            rw [hx] at h
            exact Except.noConfusion h
          | ok l =>
            rw [hx] at h
            have h2' : Except.ok ((p, f) :: l) = Except.ok updated := h
            injection h2' with h3
            intro hnot
            exfalso
            apply hnot
            rw [← h3]
            simp
        · intro _
          omega
    · by_cases hq : q ∈ preserved
      · rw [if_pos hq] at h
        cases hgq : alGet idx.path2id q with
        | none =>
          simp only [hgq] at h
          exact ih _ _ h p f hm1 hp en hen t ht
        | some enq =>
          simp only [hgq] at h
          cases htq : g.mtime with
          | none =>
            simp only [htq] at h
            exact ih _ _ h p f hm1 hp en hen t ht
          | some tq =>
            simp only [htq] at h
            by_cases hlt : tq < enq.modified
            · rw [if_pos hlt] at h
              exact Except.noConfusion h
            · rw [if_neg hlt] at h
              by_cases hth : RESOURCE_UPDATED_THRESHOLD ≤ tq - enq.modified
              · rw [if_pos hth] at h
                cases hx : detect_updated idx rest preserved with
                | error e =>
                  rw [hx] at h
                  exact Except.noConfusion h
                | ok l =>
                  rw [hx] at h
                  have h2' : Except.ok ((q, g) :: l) = Except.ok updated := h
                  injection h2' with h3
                  obtain ⟨hle, himp⟩ := ih _ _ hx p f hm1 hp en hen t ht
                  refine ⟨hle, fun hnot => himp (fun hl => hnot ?_)⟩
                  rw [← h3]
                  simp only [List.map_cons, List.mem_cons]
                  exact Or.inr hl
              · rw [if_neg hth] at h
                exact ih _ _ h p f hm1 hp en hen t ht
      · rw [if_neg hq] at h
        exact ih _ _ h p f hm1 hp en hen t ht

theorem detect_updated_ok_nil (idx : ResourceIndex) (fs : FileSys) :
    ∀ (preserved : List FPath),
      (∀ p f, (p, f) ∈ fs → p ∈ preserved →
        ∀ en, alGet idx.path2id p = some en →
          ∀ t, f.mtime = some t →
            en.modified ≤ t ∧
              t - en.modified < RESOURCE_UPDATED_THRESHOLD) →
      detect_updated idx fs preserved = Except.ok [] := by
  induction fs with
  | nil =>
    intro preserved _
    rfl
  | cons hd rest ih =>
    obtain ⟨p, f⟩ := hd
    intro preserved hyp
    have htail := ih preserved (fun p' f' hm => hyp p' f' (List.mem_cons_of_mem _ hm))
    simp only [detect_updated]
    by_cases hp : p ∈ preserved
    · rw [if_pos hp]
      cases hg : alGet idx.path2id p with
      | none => exact htail
      | some en =>
        cases ht : f.mtime with
        | none => exact htail
        | some t =>
          obtain ⟨hle, hsm⟩ :=
            hyp p f (List.mem_cons_self _ _) hp en hg t ht
          show (if t < en.modified then Except.error ArkErr.other
            else if RESOURCE_UPDATED_THRESHOLD ≤ t - en.modified then
              Except.map (fun l => (p, f) :: l)
                (detect_updated idx rest preserved)
            else detect_updated idx rest preserved) = Except.ok []
          rw [if_neg (Nat.not_lt.mpr hle), if_neg (by omega :
            ¬ RESOURCE_UPDATED_THRESHOLD ≤ t - en.modified)]
          exact htail
    · rw [if_neg hp]
      exact htail

/-- C5: update_all is idempotent over an unchanged filesystem: whenever a
first call on a directory scan (with distinct paths) succeeds, a second
call on the same scan succeeds with an empty IndexUpdate (no deleted ids,
no added paths) and leaves the index unchanged — the millisecond
truncation of stored modification times together with the 1 ms update
threshold never classifies an unchanged file as updated. -/
theorem update_all_idempotent (idx : ResourceIndex) (fs : FileSys)
    (hnd : (fs.map Prod.fst).Nodup)
    (u1 : IndexUpdate) (idx1 : ResourceIndex)
    (h1 : update_all idx fs = Except.ok (u1, idx1)) :
    update_all idx1 fs = Except.ok (⟨[], []⟩, idx1) := by
  cases hdet : detect_updated idx fs (preservedOf idx fs) with
  | error e =>
    rw [update_all_eq_err idx fs e hdet] at h1
    exact Except.noConfusion h1
  | ok updated =>
    rw [update_all_eq_ok idx fs updated hdet] at h1
    rw [Except.ok.injEq, Prod.mk.injEq] at h1
    obtain ⟨hu, hidx⟩ := h1
    set PTD := pathsToDeleteOf idx fs updated with hPTD
    set idxd := (delete_paths idx [] PTD).1 with hidxd
    set added := addedOf idx fs updated idxd with hadded
    have hupfs : List.Sublist updated fs :=
      detect_updated_sublist idx fs _ _ hdet
    have hcreated_fs : ∀ x, x ∈ createdOf idx fs → x ∈ fs := by
      intro x hx
      simp only [createdOf] at hx
      exact (List.mem_filter.mp hx).1
    have hupkeys : ∀ q, q ∈ updated.map Prod.fst → q ∈ preservedOf idx fs := by
      intro q hq
      obtain ⟨x, hx, rfl⟩ := List.mem_map.mp hq
      exact detect_updated_mem_pres idx fs _ _ hdet x.1 x.2 hx
    have hcrkeys : ∀ q, q ∈ (createdOf idx fs).map Prod.fst →
        q ∉ preservedOf idx fs := by
      intro q hq
      obtain ⟨x, hx, rfl⟩ := List.mem_map.mp hq
      simp only [createdOf] at hx
      exact of_decide_eq_true (List.mem_filter.mp hx).2
    have hpres_sub : ∀ q, q ∈ preservedOf idx fs → q ∈ fs.map Prod.fst := by
      intro q hq
      simp only [preservedOf] at hq
      exact (List.mem_filter.mp hq).1
    have hpres_prev : ∀ q, q ∈ preservedOf idx fs →
        q ∈ idx.path2id.map Prod.fst := by
      intro q hq
      simp only [preservedOf] at hq
      exact of_decide_eq_true (List.mem_filter.mp hq).2
    have hfreshnd : ((freshOf idx fs updated).map Prod.fst).Nodup := by
      simp only [freshOf, List.map_append]
      apply List.Nodup.append
      · exact hnd.sublist
          ((scan_entries_keys updated).trans (List.Sublist.map Prod.fst hupfs))
      · exact hnd.sublist
          ((scan_entries_keys (createdOf idx fs)).trans
            (List.Sublist.map Prod.fst
              (List.filter_sublist fs :
                List.Sublist (createdOf idx fs) fs)))
      · intro a ha hb
        exact hcrkeys a ((scan_entries_keys _).subset hb)
          (hupkeys a ((scan_entries_keys _).subset ha))
    have haddednd : (added.map Prod.fst).Nodup := by
      rw [hadded]
      simp only [addedOf]
      exact hfreshnd.sublist
        (List.Sublist.map Prod.fst (List.filter_sublist _))
    have haddedkeys : ∀ q, q ∈ added.map Prod.fst →
        q ∈ updated.map Prod.fst ∨ q ∈ (createdOf idx fs).map Prod.fst := by
      intro q hqa
      rw [hadded] at hqa
      simp only [addedOf] at hqa
      have hq2 : q ∈ (freshOf idx fs updated).map Prod.fst :=
        (List.Sublist.map Prod.fst (List.filter_sublist _)).subset hqa
      simp only [freshOf, List.map_append] at hq2
      rcases List.mem_append.mp hq2 with hq3 | hq3
      · exact Or.inl ((scan_entries_keys updated).subset hq3)
      · exact Or.inr ((scan_entries_keys _).subset hq3)
    have haddedsub : ∀ q, q ∈ added.map Prod.fst → q ∈ fs.map Prod.fst := by
      intro q hqa
      rcases haddedkeys q hqa with hq | hq
      · exact (List.Sublist.map Prod.fst hupfs).subset hq
      · obtain ⟨x, hx, rfl⟩ := List.mem_map.mp hq
        exact List.mem_map_of_mem Prod.fst (hcreated_fs x hx)
    have hpd : ∀ q, alGet idxd.path2id q =
        if q ∈ PTD then none else alGet idx.path2id q := by
      intro q
      rw [hidxd]
      exact delete_paths_path2id PTD idx [] q
    have hi1_not : ∀ q, q ∉ added.map Prod.fst →
        alGet idx1.path2id q = alGet idxd.path2id q := by
      intro q hq
      rw [← hidx]
      exact insert_many_not_mem added idxd q hq
    have hi1_mem : ∀ q e, (q, e) ∈ added → alGet idx1.path2id q = some e := by
      intro q e hm
      rw [← hidx]
      exact insert_many_mem_path2id added idxd q e haddednd hm
    have hkeys1 : ∀ q, alGet idx1.path2id q ≠ none → q ∈ fs.map Prod.fst := by
      intro q hq
      by_cases hqa : q ∈ added.map Prod.fst
      · exact haddedsub q hqa
      · rw [hi1_not q hqa, hpd q] at hq
        by_cases hptd : q ∈ PTD
        · rw [if_pos hptd] at hq
          exact absurd rfl hq
        · rw [if_neg hptd] at hq
          have hq2 : q ∈ idx.path2id.map Prod.fst := by
            by_contra hq3
            exact hq ((alGet_eq_none_iff _ _).mpr hq3)
          by_contra hqc
          apply hptd
          rw [hPTD]
          simp only [pathsToDeleteOf]
          apply List.mem_append_left
          apply List.mem_filter.mpr
          refine ⟨hq2, decide_eq_true ?_⟩
          intro hqp
          exact hqc (hpres_sub q hqp)
    have hnotpres2 : ∀ p, p ∈ fs.map Prod.fst → p ∉ preservedOf idx1 fs →
        alGet idx1.path2id p = none := by
      intro p hp hnp
      apply (alGet_eq_none_iff _ _).mpr
      intro hmem
      apply hnp
      simp only [preservedOf]
      exact List.mem_filter.mpr ⟨hp, decide_eq_true hmem⟩
    have hfreshid : ∀ q e, (q, e) ∈ freshOf idx fs updated →
        alGet idx1.id2path e.id ≠ none := by
      intro q e hm
      by_cases hgd : alGet idxd.id2path e.id = none
      · have hmem : (q, e) ∈ added := by
          rw [hadded]
          simp only [addedOf]
          exact List.mem_filter.mpr ⟨hm, decide_eq_true hgd⟩
        rw [← hidx]
        exact insert_many_mem_id2path added idxd q e hmem
      · rw [← hidx]
        exact insert_many_id2path_mono added idxd e.id hgd
    have hcond : ∀ p f, (p, f) ∈ fs → p ∈ preservedOf idx1 fs →
        ∀ en, alGet idx1.path2id p = some en →
          ∀ t, f.mtime = some t →
            en.modified ≤ t ∧
              t - en.modified < RESOURCE_UPDATED_THRESHOLD := by
      intro p f hpf hp2 en hen t ht
      by_cases hqa : p ∈ added.map Prod.fst
      · obtain ⟨x, hx, hx1⟩ := List.mem_map.mp hqa
        obtain ⟨q0, e0⟩ := x
        have hq0p : q0 = p := hx1
        subst hq0p
        have he := hi1_mem q0 e0 hx
        rw [hadded] at hx
        simp only [addedOf] at hx
        have hx2 : (q0, e0) ∈ freshOf idx fs updated :=
          (List.filter_sublist _).subset hx
        simp only [freshOf] at hx2
        have hgex : ∃ g, (q0, g) ∈ fs ∧ scan_entry g = some e0 := by
          rcases List.mem_append.mp hx2 with hx3 | hx3
          · obtain ⟨g, hg1, hg2⟩ := (scan_entries_mem _ _ _).mp hx3
            exact ⟨g, hupfs.subset hg1, hg2⟩
          · obtain ⟨g, hg1, hg2⟩ := (scan_entries_mem _ _ _).mp hx3
            exact ⟨g, hcreated_fs _ hg1, hg2⟩
        obtain ⟨g, hgfs1, hg2⟩ := hgex
        have hfg : g = f := assoc_nodup_unique hnd hgfs1 hpf
        subst hfg
        obtain ⟨i, t0, hr, hmt, hee⟩ := scan_entry_eq_some g e0 hg2
        rw [hmt] at ht
        injection ht with htt
        subst htt
        have hee2 : e0 = en := by
          have h3 := he.symm.trans hen
          injection h3
        subst hee2
        rw [hee]
        exact ⟨truncMs_le t0, truncMs_close t0⟩
      · rw [hi1_not p hqa, hpd p] at hen
        by_cases hptd : p ∈ PTD
        · rw [if_pos hptd] at hen
          exact Option.noConfusion hen
        · rw [if_neg hptd] at hen
          have hp1 : p ∈ preservedOf idx fs := by
            simp only [preservedOf]
            apply List.mem_filter.mpr
            refine ⟨List.mem_map_of_mem Prod.fst hpf, decide_eq_true ?_⟩
            exact List.mem_map_of_mem Prod.fst (alGet_mem _ _ _ hen)
          have hnu : p ∉ updated.map Prod.fst := by
            intro hu
            apply hptd
            rw [hPTD]
            simp only [pathsToDeleteOf]
            exact List.mem_append_right _ hu
          obtain ⟨hle, himp⟩ :=
            detect_updated_bound idx fs _ _ hdet p f hpf hp1 en hen t ht
          exact ⟨hle, himp hnu⟩
    have hdet2 : detect_updated idx1 fs (preservedOf idx1 fs) =
        Except.ok [] := detect_updated_ok_nil idx1 fs _ hcond
    have hprev2 : (idx1.path2id.map Prod.fst).filter
        (fun p => decide (p ∉ preservedOf idx1 fs)) = [] := by
      rw [List.filter_eq_nil_iff]
      intro a ha
      intro hdec
      have hnp : a ∉ preservedOf idx1 fs := of_decide_eq_true hdec
      apply hnp
      simp only [preservedOf]
      apply List.mem_filter.mpr
      refine ⟨?_, decide_eq_true ha⟩
      apply hkeys1
      intro hnone
      exact ((alGet_eq_none_iff _ _).mp hnone) ha
    have hptd2 : pathsToDeleteOf idx1 fs [] = [] := by
      simp only [pathsToDeleteOf, List.map_nil, List.append_nil]
      exact hprev2
    have hadded2 : addedOf idx1 fs [] (delete_paths idx1 [] []).1 = [] := by
      show addedOf idx1 fs [] idx1 = []
      simp only [addedOf, freshOf]
      rw [show scan_entries ([] : List (FPath × FsFile)) = [] from rfl,
        List.nil_append, List.filter_eq_nil_iff]
      intro pe hpe hdec
      obtain ⟨q, e⟩ := pe
      have hidnone : alGet idx1.id2path e.id = none := of_decide_eq_true hdec
      obtain ⟨g, hg1, hg2⟩ := (scan_entries_mem _ _ _).mp hpe
      simp only [createdOf] at hg1
      have hg3 := List.mem_filter.mp hg1
      have hqfs : (q, g) ∈ fs := hg3.1
      have hqnp : q ∉ preservedOf idx1 fs := of_decide_eq_true hg3.2
      have hqnone : alGet idx1.path2id q = none :=
        hnotpres2 q (List.mem_map_of_mem Prod.fst hqfs) hqnp
      have hfresh : (q, e) ∈ freshOf idx fs updated := by
        by_cases hq1 : q ∈ preservedOf idx fs
        · by_cases hqu : q ∈ updated.map Prod.fst
          · obtain ⟨x, hx, hx1⟩ := List.mem_map.mp hqu
            obtain ⟨q1, g1⟩ := x
            have hq1q : q1 = q := hx1
            subst hq1q
            have hg1fs : (q1, g1) ∈ fs := hupfs.subset hx
            have hg1g : g1 = g := assoc_nodup_unique hnd hg1fs hqfs
            subst hg1g
            simp only [freshOf]
            apply List.mem_append_left
            exact (scan_entries_mem _ _ _).mpr ⟨g1, hx, hg2⟩
          · exfalso
            have hq0 : alGet idx.path2id q ≠ none := by
              intro hn
              exact ((alGet_eq_none_iff _ _).mp hn) (hpres_prev q hq1)
            have hqptd : q ∉ PTD := by
              intro hin
              rw [hPTD] at hin
              simp only [pathsToDeleteOf] at hin
              rcases List.mem_append.mp hin with hin1 | hin1
              · exact of_decide_eq_true (List.mem_filter.mp hin1).2 hq1
              · exact hqu hin1
            have hqnadded : q ∉ added.map Prod.fst := by
              intro hqa
              rcases haddedkeys q hqa with hq | hq
              · exact hqu hq
              · exact hcrkeys q hq hq1
            rw [hi1_not q hqnadded, hpd q, if_neg hqptd] at hqnone
            exact hq0 hqnone
        · simp only [freshOf]
          apply List.mem_append_right
          apply (scan_entries_mem _ _ _).mpr
          refine ⟨g, ?_, hg2⟩
          simp only [createdOf]
          exact List.mem_filter.mpr ⟨hqfs, decide_eq_true hq1⟩
      exact hfreshid q e hfresh hidnone
    rw [update_all_eq_ok idx1 fs [] hdet2, hptd2, hadded2]
    rfl

theorem update_all_idempotent_witness :
    update_all
        (⟨[(⟨10, 5⟩, 1)], [(1, ⟨1000000, ⟨10, 5⟩⟩)], []⟩ : ResourceIndex)
        [(1, ⟨some 1500000, some ⟨10, 5⟩⟩)] =
      Except.ok
        (⟨[], []⟩,
          ⟨[(⟨10, 5⟩, 1)], [(1, ⟨1000000, ⟨10, 5⟩⟩)], []⟩) :=
  update_all_idempotent ⟨[], [], []⟩ [(1, ⟨some 1500000, some ⟨10, 5⟩⟩)]
    (by decide) ⟨[], [(1, ⟨10, 5⟩)]⟩
    ⟨[(⟨10, 5⟩, 1)], [(1, ⟨1000000, ⟨10, 5⟩⟩)], []⟩ (by decide)

end Arklib
